import Mathlib

/- Verification of the crawl-and-content-negotiation engine of site2skill-go.
   Go strings are modelled as lists of characters (GoStr below); parsed URLs as
   a record of scheme/host/path/rawQuery components.  Each definition mirrors
   the Go function of the same name from internal/fetcher (robots.go, locale.go
   and the crawl driver). -/

namespace S2S

/-- Go strings modelled as lists of characters (bytes of the source are ASCII
in every code path modelled here, so characters are a faithful byte model). -/
abbrev GoStr := List Char

/-- Convert a Lean string literal into the GoStr model. -/
def gs (s : String) : GoStr := s.data

/-- ASCII lower-casing of a character, the fragment of Go strings.ToLower
exercised by the sources (user agents, locale codes, directive keys). -/
def asciiLower (c : Char) : Char :=
  if 'A' ≤ c ∧ c ≤ 'Z' then Char.ofNat (c.toNat + 32) else c

/-- strings.ToLower on the ASCII fragment. -/
def lowerStr (s : GoStr) : GoStr := s.map asciiLower

/-- Go unicode.IsSpace on the ASCII fragment (the whitespace characters that
occur in robots.txt lines). -/
def isSpaceGo (c : Char) : Bool :=
  c = ' ' ∨ c = '\t' ∨ c = '\n' ∨ c = '\x0b' ∨ c = '\x0c' ∨ c = '\r'

/-- strings.TrimSpace. -/
def trimSpace (s : GoStr) : GoStr :=
  ((s.dropWhile isSpaceGo).reverse.dropWhile isSpaceGo).reverse

/-- strings.TrimSuffix: drop the suffix when present. -/
def trimSuffix (s suf : GoStr) : GoStr :=
  if suf.isSuffixOf s then s.take (s.length - suf.length) else s

/-- strings.TrimPrefix: drop the leading occurrence when present. -/
def trimPre (s pre : GoStr) : GoStr :=
  if pre.isPrefixOf s then s.drop pre.length else s

/-- strings.Index: index of the leftmost occurrence of needle in hay, or
none where the Go function returns -1. -/
def goIndex : GoStr → GoStr → Option Nat
  | [], needle => if needle = [] then some 0 else none
  | c :: t, needle =>
    if needle.isPrefixOf (c :: t) then some 0
    else
      match goIndex t needle with
      | none => none
      | some i => some (i + 1)

/-- strings.Contains. -/
def containsStr (s sub : GoStr) : Bool := (goIndex s sub).isSome

/-- strings.Split with a single-character separator (the only separators used
by the modelled code are single characters). -/
def splitChar (c : Char) : GoStr → List GoStr
  | [] => [[]]
  | x :: xs =>
    if x = c then [] :: splitChar c xs
    else
      match splitChar c xs with
      | [] => [[x]]
      | h :: t => (x :: h) :: t

/- ----------------------------------------------------------------------
   robots.go: pattern matching and the IsAllowed verdict
   ---------------------------------------------------------------------- -/

/-- The loop body of RobotsChecker.wildcardMatch: scan the parts obtained by
splitting the pattern on the asterisk, advancing a position in the path.  The
index argument i mirrors the Go range index, used only for the pin of the
first part to offset 0.  Returns the final position, or none on failure. -/
def wildcardLoop (path : GoStr) (leadStar : Bool) :
    List GoStr → Nat → Nat → Option Nat
  | [], _, pos => some pos
  | p :: rest, i, pos =>
    if p = [] then wildcardLoop path leadStar rest (i + 1) pos
    else
      match goIndex (path.drop pos) p with
      | none => none
      | some idx =>
        if i = 0 ∧ leadStar = false ∧ idx ≠ 0 then none
        else wildcardLoop path leadStar rest (i + 1) (pos + idx + p.length)

/-- RobotsChecker.wildcardMatch from robots.go. -/
def wildcardMatch (path pattern : GoStr) (mustMatchEnd : Bool) : Bool :=
  let parts := splitChar '*' pattern
  let leadStar := (gs "*").isPrefixOf pattern
  match wildcardLoop path leadStar parts 0 0 with
  | none => false
  | some pos => if mustMatchEnd ∧ pos ≠ path.length then false else true

/-- RobotsChecker.pathMatches from robots.go. -/
def pathMatches (path pattern : GoStr) : Bool :=
  if pattern = [] then false
  else
    let mustMatchEnd := (gs "$").isSuffixOf pattern
    let pattern := if mustMatchEnd then pattern.take (pattern.length - 1) else pattern
    if containsStr pattern (gs "*") then wildcardMatch path pattern mustMatchEnd
    else if mustMatchEnd then path = pattern else pattern.isPrefixOf path

/-- One iteration of the rule-scanning loops of RobotsChecker.IsAllowed: a
rule that matches and is strictly longer than the best match so far installs
the given verdict and its length. -/
def ruleStep (path : GoStr) (verdict : Bool) (st : Bool × Nat) (rule : GoStr) :
    Bool × Nat :=
  if pathMatches path rule ∧ st.2 < rule.length then (verdict, rule.length) else st

/-- The verdict computation of RobotsChecker.IsAllowed from robots.go, given
the allow and disallow rule lists of the cached rule set and the (already
parsed, slash-normalised) request path.  The allow rules are scanned first
with verdict true, then the disallow rules with verdict false, starting from
(allowed, matchedLen) = (true, 0). -/
def IsAllowed (allowRules disallowRules : List GoStr) (path : GoStr) : Bool :=
  (disallowRules.foldl (ruleStep path false)
    (allowRules.foldl (ruleStep path true) (true, 0))).1

/-- The length of the longest rule in the list matching the path (0 when no
rule matches); the specification-side quantity the scanning loops track. -/
def mml (path : GoStr) : List GoStr → Nat
  | [] => 0
  | r :: l => if pathMatches path r then max r.length (mml path l) else mml path l

/-- The fragment frag occurs in the path at offset i. -/
def occursAt (path frag : GoStr) (i : Nat) : Prop :=
  frag.isPrefixOf (path.drop i) = true

/-- The fragments all occur in the path, in order, each one starting no
earlier than position pos and after the end of the previous one. -/
def fragsFrom (path : GoStr) : List GoStr → Nat → Prop
  | [], _ => True
  | f :: fs, pos =>
    ∃ i, pos ≤ i ∧ occursAt path f i ∧ fragsFrom path fs (i + f.length)

/-- The non-empty fragments of a wildcard pattern (split on the asterisk). -/
def nonEmptyFrags (pattern : GoStr) : List GoStr :=
  (splitChar '*' pattern).filter (fun p => p ≠ [])

/-- The specification-side reading of wildcard matching: each non-empty
fragment occurs in order within the path, with the first fragment pinned to
offset 0 unless the pattern starts with an asterisk. -/
def fragSpec (path pattern : GoStr) : Prop :=
  if (gs "*").isPrefixOf pattern then fragsFrom path (nonEmptyFrags pattern) 0
  else
    match nonEmptyFrags pattern with
    | [] => True
    | f :: fs => occursAt path f 0 ∧ fragsFrom path fs f.length

/- ----------------------------------------------------------------------
   robots.go: parseRobotsTxt
   ---------------------------------------------------------------------- -/

/-- The user agent string of the fetcher (the UserAgent constant). -/
def UserAgent : GoStr :=
  gs "site2skillgo/1.0 (+https://github.com/f4ah6o/site2skill-go)"

/-- The allow and disallow pattern lists of a robotsRules value (the
crawlDelay field is parsed but never set, and fetchedAt is a timestamp with
no effect on verdicts; both are omitted). -/
structure RulesPair where
  disallowRules : List GoStr
  allowRules : List GoStr
deriving DecidableEq

/-- The loop state of parseRobotsTxt: the current user-agent block, whether
it applies to this crawler, and the accumulated specific and wildcard rule
sets. -/
structure ParseState where
  currentUserAgent : GoStr
  matchesUs : Bool
  rules : RulesPair
  wildcardRules : RulesPair
deriving DecidableEq

/-- The state at the top of parseRobotsTxt's scanning loop. -/
def initParseState : ParseState :=
  { currentUserAgent := [], matchesUs := false,
    rules := ⟨[], []⟩, wildcardRules := ⟨[], []⟩ }

/-- One iteration of parseRobotsTxt's line loop: trim the line, skip blanks
and comments, split at the first colon, and dispatch on the lower-cased key
exactly as the switch statement in robots.go does. -/
def parseLine (userAgent : GoStr) (st : ParseState) (rawLine : GoStr) :
    ParseState :=
  let line := trimSpace rawLine
  if line = [] ∨ (gs "#").isPrefixOf line then st
  else
    match goIndex line (gs ":") with
    | none => st
    | some colonIdx =>
      let key := lowerStr (trimSpace (line.take colonIdx))
      let value := trimSpace (line.drop (colonIdx + 1))
      if key = gs "user-agent" then
        let cua := lowerStr value
        let m : Bool :=
          if cua = gs "*" then false
          else if containsStr (lowerStr userAgent) cua ∨ cua = lowerStr userAgent
            then true
          else false
        { st with currentUserAgent := cua, matchesUs := m }
      else if key = gs "disallow" then
        if value = [] then st
        else if st.matchesUs then
          { st with rules :=
              ⟨st.rules.disallowRules ++ [value], st.rules.allowRules⟩ }
        else if st.currentUserAgent = gs "*" then
          { st with wildcardRules :=
              ⟨st.wildcardRules.disallowRules ++ [value],
               st.wildcardRules.allowRules⟩ }
        else st
      else if key = gs "allow" then
        if st.matchesUs then
          { st with rules :=
              ⟨st.rules.disallowRules, st.rules.allowRules ++ [value]⟩ }
        else if st.currentUserAgent = gs "*" then
          { st with wildcardRules :=
              ⟨st.wildcardRules.disallowRules,
               st.wildcardRules.allowRules ++ [value]⟩ }
        else st
      else st

/-- parseRobotsTxt from robots.go, on the list of lines produced by the
bufio scanner: fold the line loop over the input, then fall back to the
wildcard rules when the specific-agent set ended up entirely empty. -/
def parseRobotsTxt (userAgent : GoStr) (lines : List GoStr) : RulesPair :=
  let st := lines.foldl (parseLine userAgent) initParseState
  if st.rules.disallowRules = [] ∧ st.rules.allowRules = [] then
    st.wildcardRules
  else st.rules

/- ----------------------------------------------------------------------
   locale.go: ExtractLocale / BuildLocaleURL and the URL model
   ---------------------------------------------------------------------- -/

/-- The components of a parsed net/url URL used by the modelled code. -/
structure URLModel where
  scheme : GoStr
  host : GoStr
  path : GoStr
  rawQuery : GoStr
deriving DecidableEq

/-- LocaleConfig from locale.go. -/
structure LocaleConfig where
  Priority : List GoStr
  ParamName : GoStr
deriving DecidableEq

/-- DefaultLocalePriority from locale.go. -/
def DefaultLocalePriority : List GoStr := [gs "en", gs "ja"]

/-- The entries of the KnownLocales set from locale.go. -/
def KnownLocalesList : List GoStr :=
  [gs "en", gs "en-us", gs "en-gb",
   gs "ja", gs "ja-jp",
   gs "zh", gs "zh-cn", gs "zh-tw", gs "zh-hk",
   gs "ko", gs "ko-kr",
   gs "de", gs "de-de",
   gs "fr", gs "fr-fr",
   gs "es", gs "es-es",
   gs "it", gs "it-it",
   gs "pt", gs "pt-br",
   gs "ru", gs "ru-ru",
   gs "ar", gs "nl", gs "pl", gs "tr",
   gs "vi", gs "th", gs "id", gs "ms"]

/-- KnownLocales membership from locale.go. -/
def KnownLocales (l : GoStr) : Bool := KnownLocalesList.contains l

/-- A lowercase ASCII letter. -/
def isLowerAl (c : Char) : Bool := 'a' ≤ c ∧ c ≤ 'z'

/-- An ASCII letter, the character class of the region part of the locale
path regex. -/
def isAl (c : Char) : Bool := ('a' ≤ c ∧ c ≤ 'z') ∨ ('A' ≤ c ∧ c ≤ 'Z')

/-- Whether a string starts with a slash. -/
def startsSlash (r : GoStr) : Bool :=
  match r with | c :: _ => c = '/' | [] => false

/-- One backtracking attempt of the region group of localePathPattern: a
region of exactly n alphabetic characters followed by a slash. -/
def regionTry (r : GoStr) (n : Nat) : Option GoStr :=
  let seg := r.take n
  if seg.length = n ∧ seg.all isAl ∧ startsSlash (r.drop n) then some seg
  else none

/-- The optional greedy region group of localePathPattern: a dash followed by
2 to 4 alphabetic characters, longest first, with a slash required after. -/
def tryRegion (rest : GoStr) : Option GoStr :=
  match rest with
  | '-' :: r =>
    match regionTry r 4 with
    | some seg => some ('-' :: seg)
    | none =>
      match regionTry r 3 with
      | some seg => some ('-' :: seg)
      | none =>
        match regionTry r 2 with
        | some seg => some ('-' :: seg)
        | none => none
  | _ => none

/-- Model of localePathPattern.FindStringSubmatch from locale.go: the capture
of the anchored regex on the path, two lowercase letters
optionally extended by the region group, delimited by slashes. -/
def localeMatch (p : GoStr) : Option GoStr :=
  match p with
  | '/' :: c1 :: c2 :: rest =>
    if isLowerAl c1 ∧ isLowerAl c2 then
      match tryRegion rest with
      | some reg => some (c1 :: c2 :: reg)
      | none => match rest with
        | '/' :: _ => some [c1, c2]
        | _ => none
    else none
  | _ => none

/-- An unreserved character of RFC 3986, kept verbatim by Go's query
escaping. -/
def isUnreserved (c : Char) : Bool :=
  ('a' ≤ c ∧ c ≤ 'z') ∨ ('A' ≤ c ∧ c ≤ 'Z') ∨ ('0' ≤ c ∧ c ≤ '9') ∨
    c = '-' ∨ c = '_' ∨ c = '.' ∨ c = '~'

/-- The upper-case hexadecimal digit of a value below 16. -/
def hexDigitUpper (n : Nat) : Char :=
  if n < 10 then Char.ofNat ('0'.toNat + n)
  else Char.ofNat ('A'.toNat + (n - 10))

/-- Model of net/url.QueryEscape on the ASCII fragment: unreserved characters
kept, space as plus, everything else percent-encoded. -/
def queryEscape : GoStr → GoStr
  | [] => []
  | c :: r =>
    if isUnreserved c then c :: queryEscape r
    else if c = ' ' then '+' :: queryEscape r
    else '%' :: hexDigitUpper (c.toNat / 16) :: hexDigitUpper (c.toNat % 16) ::
      queryEscape r

/-- The value of a hexadecimal digit character. -/
def hexVal (c : Char) : Option Nat :=
  if '0' ≤ c ∧ c ≤ '9' then some (c.toNat - '0'.toNat)
  else if 'a' ≤ c ∧ c ≤ 'f' then some (c.toNat - 'a'.toNat + 10)
  else if 'A' ≤ c ∧ c ≤ 'F' then some (c.toNat - 'A'.toNat + 10)
  else none

/-- The decoded byte of a two-hex-digit escape at the front of the string,
when well-formed. -/
def hexPair : GoStr → Option Char
  | a :: b :: _ =>
    (match hexVal a, hexVal b with
     | some x, some y => some (Char.ofNat (16 * x + y))
     | _, _ => none)
  | _ => none

/-- Model of net/url.QueryUnescape on the ASCII fragment: plus becomes space
and a percent with two hex digits decodes to that byte.  (Go reports an
error on a malformed escape and drops the pair; the modelled inputs are
escape-free, a malformed escape is kept verbatim here.) -/
def queryUnescape : GoStr → GoStr
  | [] => []
  | c :: r =>
    if c = '+' then ' ' :: queryUnescape r
    else if c = '%' then
      match hexPair r with
      | some ch => ch :: queryUnescape (r.drop 2)
      | none => '%' :: r
    else c :: queryUnescape r
termination_by s => s.length
decreasing_by all_goals (simp only [List.length_cons, List.length_drop]; omega)

/-- Model of net/url.ParseQuery: split the raw query on ampersands, skip the
empty components, split each component at its first equals sign and
unescape both sides; pair order is component order. -/
def parseQueryPairs (q : GoStr) : List (GoStr × GoStr) :=
  if q = [] then []
  else
    ((splitChar '&' q).filter (fun kv => kv ≠ [])).map (fun kv =>
      match goIndex kv (gs "=") with
      | none => (queryUnescape kv, [])
      | some i => (queryUnescape (kv.take i), queryUnescape (kv.drop (i + 1))))

/-- Model of url.Values.Get after ParseQuery: the first value of the key, or
the empty string. -/
def queryGet (q key : GoStr) : GoStr :=
  match (parseQueryPairs q).find? (fun p => p.1 = key) with
  | some p => p.2
  | none => []

/-- Model of url.Values.Set on the pair-list representation: the key's old
values are removed and the single new value installed. -/
def setParam (pairs : List (GoStr × GoStr)) (key value : GoStr) :
    List (GoStr × GoStr) :=
  (pairs.filter (fun p => p.1 ≠ key)) ++ [(key, value)]

/-- Bytewise lexicographic order on Go strings (sort.Strings order). -/
def goStrLe : GoStr → GoStr → Bool
  | [], _ => true
  | _ :: _, [] => false
  | x :: xs, y :: ys =>
    if x.toNat < y.toNat then true
    else if y.toNat < x.toNat then false
    else goStrLe xs ys

/-- Model of url.Values.Encode: pairs sorted by key (stably, so values of one
key keep insertion order, as Go's per-key slices do), each rendered as
escaped key, equals sign, escaped value, joined with ampersands. -/
def encodeValues (pairs : List (GoStr × GoStr)) : GoStr :=
  let sorted := pairs.mergeSort (fun p q => goStrLe p.1 q.1)
  (gs "&").intercalate
    (sorted.map (fun p => queryEscape p.1 ++ gs "=" ++ queryEscape p.2))

/-- Model of url.URL.String for the escape-free URLs the modelled code
builds. -/
def urlToString (u : URLModel) : GoStr :=
  u.scheme ++ gs "://" ++ u.host ++ u.path ++
    (if u.rawQuery = [] then [] else '?' :: u.rawQuery)

/-- Model of net/url.Parse restricted to the escape-free absolute URLs the
modelled code builds: the scheme runs up to the first colon-slash-slash, the
host up to the first slash or question mark, the path up to the query
delimiter, and everything after a hash is dropped; no percent-decoding. -/
def parseSimpleURL (s : GoStr) : Option URLModel :=
  match goIndex s (gs "://") with
  | none => none
  | some i =>
    let scheme := s.take i
    let rest := s.drop (i + 3)
    let beforeHash := rest.takeWhile (fun c => ¬(c = '#'))
    let host := beforeHash.takeWhile (fun c => ¬(c = '/') ∧ ¬(c = '?'))
    let pq := beforeHash.drop host.length
    let path := pq.takeWhile (fun c => ¬(c = '?'))
    let rawQuery := (pq.drop path.length).drop 1
    some ⟨scheme, host, path, rawQuery⟩

/-- The path-detection arm of ExtractLocale from locale.go: match the locale
path regex, lower-case the captured segment, accept it when known, and strip
it from the path (an emptied path becomes the root). -/
def extractLocalePath (path : GoStr) : GoStr × GoStr :=
  match localeMatch path with
  | some seg =>
    let potential := lowerStr seg
    if KnownLocales potential then
      let canonical := trimPre path ('/' :: seg)
      (potential, if canonical = [] then gs "/" else canonical)
    else ([], path)
  | none => ([], path)

/-- ExtractLocale from locale.go on the URL model (the nil-URL guard falls
away: a parsed URL is always a value here). -/
def ExtractLocale (u : URLModel) (cfg : Option LocaleConfig) : GoStr × GoStr :=
  match cfg with
  | some c =>
    if c.ParamName = [] then extractLocalePath u.path
    else (queryGet u.rawQuery c.ParamName, u.path)
  | none => extractLocalePath u.path

/-- BuildLocaleURL from locale.go. -/
def BuildLocaleURL (baseURL locale canonical : GoStr)
    (cfg : Option LocaleConfig) : GoStr :=
  if locale = [] then baseURL ++ canonical
  else
    match cfg with
    | some c =>
      if c.ParamName = [] then baseURL ++ gs "/" ++ locale ++ canonical
      else
        match parseSimpleURL (baseURL ++ canonical) with
        | none => baseURL ++ canonical
        | some u =>
          let q := setParam (parseQueryPairs u.rawQuery) c.ParamName locale
          urlToString { u with rawQuery := encodeValues q }
    | none => baseURL ++ gs "/" ++ locale ++ canonical

/-- Characters allowed in a modelled host: anything but the URL delimiters
recognised by the simple parser. -/
def hostClean (c : Char) : Bool := ¬(c = '/') ∧ ¬(c = '?') ∧ ¬(c = '#')

/-- Characters of a pure canonical path: unreserved characters and slashes,
which Go's URL building and parsing both carry verbatim. -/
def pathCleanChar (c : Char) : Bool := isUnreserved c ∨ c = '/'

/- ----------------------------------------------------------------------
   Crawl driver: getFilePath and the filepath model
   ---------------------------------------------------------------------- -/

/-- strings.ReplaceAll with a single-character needle. -/
def replaceAllChar : GoStr → Char → GoStr → GoStr
  | [], _, _ => []
  | x :: t, c, r => (if x = c then r else [x]) ++ replaceAllChar t c r

/-- The segment-stack processing of Go's path cleaning: empty and dot
segments vanish; a dotdot pops the previous segment, is dropped at the root
of a rooted path, and accumulates at the front of a relative one.  The
stack is kept reversed and flipped at the end. -/
def cleanStack (rooted : Bool) : List GoStr → List GoStr → List GoStr
  | st, [] => st.reverse
  | st, seg :: rest =>
    if seg = [] ∨ seg = gs "." then cleanStack rooted st rest
    else if seg = gs ".." then
      match st with
      | top :: st2 =>
        if top = gs ".." then cleanStack rooted (seg :: top :: st2) rest
        else cleanStack rooted st2 rest
      | [] =>
        if rooted then cleanStack rooted [] rest
        else cleanStack rooted [gs ".."] rest
    else cleanStack rooted (seg :: st) rest

/-- Model of filepath.Clean for slash-separated paths. -/
def cleanPath (p : GoStr) : GoStr :=
  if p = [] then gs "."
  else
    let rooted := startsSlash p
    let stack := cleanStack rooted [] (splitChar '/' p)
    let joined := (gs "/").intercalate stack
    if rooted then '/' :: joined
    else if joined = [] then gs "." else joined

/-- Model of filepath.Join on three components: the non-empty components
joined with slashes, then cleaned; empty when every component is empty. -/
def joinPath3 (a b c : GoStr) : GoStr :=
  let parts := [a, b, c].filter (fun x => x ≠ [])
  if parts = [] then []
  else cleanPath ((gs "/").intercalate parts)

/-- Model of filepath.Ext: the suffix of the last segment from its final
dot, or empty when the last segment has no dot. -/
def extPath (p : GoStr) : GoStr :=
  let last := (splitChar '/' p).getLastD []
  let revAfterDot := last.reverse.takeWhile (fun c => ¬(c = '.'))
  if revAfterDot.length = last.length then []
  else '.' :: revAfterDot.reverse

/-- The URL-to-relative-path mapping inside getFilePath of the crawl
driver: root paths become /index, one trailing slash is stripped, a
non-empty query is encoded (sorted keys) with ampersand and equals turned
into underscores and percents removed, appended after a _q_ marker, and a
.html extension is added when the path has none. -/
def mappedPath (u : URLModel) : GoStr :=
  let path0 := if u.path = [] ∨ u.path = gs "/" then gs "/index" else u.path
  let path1 := trimSuffix path0 (gs "/")
  let query := parseQueryPairs u.rawQuery
  let path2 :=
    if query.length > 0 then
      let encodedQuery := encodeValues query
      let safeQuery :=
        replaceAllChar (replaceAllChar (replaceAllChar encodedQuery
          '&' (gs "_")) '=' (gs "_")) '%' []
      path1 ++ gs "_q_" ++ safeQuery
    else path1
  if extPath path2 = [] then path2 ++ gs ".html" else path2

/-- getFilePath from the crawl driver: filepath.Join of the crawl
directory, the URL's host, and the mapped relative path. -/
def getFilePath (crawlDir : GoStr) (u : URLModel) : GoStr :=
  joinPath3 crawlDir u.host (mappedPath u)

/- ----------------------------------------------------------------------
   Crawl driver: Fetch / crawl / crawlWithLocalePriority / checkURLExists
   ---------------------------------------------------------------------- -/

/-- The extension deny-list of isNonHTMLResource. -/
def nonHTMLExtensions : List GoStr :=
  [gs ".css", gs ".js", gs ".png", gs ".jpg", gs ".jpeg", gs ".gif",
   gs ".svg", gs ".ico", gs ".woff", gs ".woff2", gs ".ttf", gs ".eot",
   gs ".zip", gs ".tar", gs ".gz", gs ".pdf", gs ".xml", gs ".json",
   gs ".txt"]

/-- isNonHTMLResource from the crawl driver. -/
def isNonHTMLResource (urlStr : GoStr) : Bool :=
  nonHTMLExtensions.any (fun ext => ext.isSuffixOf (lowerStr urlStr))

/-- The outcome of one HTTP GET of a page, abstracting the network, the
body read, and the downstream HTML parse: a transport error, or a response
with status, content type, whether reading the body succeeds, and the
links extracted when the HTML parses (none models a parse failure). -/
inductive GetResult where
  | netErr : GetResult
  | resp : Nat → GoStr → Bool → Option (List GoStr) → GetResult

/-- The environment of one crawl session: every network, parser and
filesystem effect of the driver as a function of the request, so the
control flow of the Go code can be mirrored exactly. -/
structure Env where
  parseURL : GoStr → Option URLModel
  robots : GoStr → Bool
  newReqOk : GoStr → Bool
  get : GoStr → GetResult
  headStatus : GoStr → Option Nat
  rangeStatus : GoStr → Option Nat
  mkdirOk : GoStr → Bool
  writeOk : GoStr → Bool
  removeOk : GoStr → Bool
  mkdirAllOk : GoStr → Bool

/-- The mutable session state of the Fetcher, with instrumentation: the
visited sets and download counter of the Go struct, plus the log of page
GETs issued (with their depth, keyed by URL in standard mode and by
canonical path in locale mode) and of existence probes. -/
structure CrawlState where
  visited : List GoStr
  visitedCanonical : List GoStr
  fetched : List (GoStr × Nat)
  fetchedCanonical : List (GoStr × Nat)
  probed : List GoStr
  downloadCount : Nat

/-- The session state at the start of a Fetch call. -/
def initCrawlState : CrawlState := ⟨[], [], [], [], [], 0⟩

/-- The fatal setup errors Fetch can return. -/
inductive FetchErr where
  | invalidURL : FetchErr
  | invalidScheme : FetchErr
  | missingHost : FetchErr
  | removeFail : FetchErr
  | createFail : FetchErr
deriving DecidableEq

/-- checkURLExists from the crawl driver: a HEAD request, falling back to a
ranged GET on a transport error; returns the existence verdict and status,
recording the probe in the state. -/
def checkURLExists (env : Env) (targetURL : GoStr) (st : CrawlState) :
    (Bool × Nat) × CrawlState :=
  if ¬ env.newReqOk targetURL then ((false, 0), st)
  else
    let st := { st with probed := targetURL :: st.probed }
    match env.headStatus targetURL with
    | some s => ((s = 200, s), st)
    | none =>
      if ¬ env.newReqOk targetURL then ((false, 0), st)
      else
        match env.rangeStatus targetURL with
        | some s => ((s = 200 ∨ s = 206, s), st)
        | none => ((false, 0), st)

/-- The outcome of the locale probing loop of crawlWithLocalePriority. -/
inductive ProbeOutcome where
  | abandoned : ProbeOutcome
  | found : GoStr → ProbeOutcome
  | exhausted : ProbeOutcome

/-- The locale probing loop of crawlWithLocalePriority: build each
candidate URL in priority order and probe it; the first existing candidate
wins; a 403, 429 or 5xx (and non-404, non-0) status abandons the canonical
path; anything else falls through to the next locale. -/
def probeLoop (env : Env) (lc : LocaleConfig) (baseURL canonical : GoStr) :
    List GoStr → CrawlState → ProbeOutcome × CrawlState
  | [], st => (.exhausted, st)
  | locale :: rest, st =>
    let testURL := BuildLocaleURL baseURL locale canonical (some lc)
    let prst := checkURLExists env testURL st
    if prst.1.1 then (.found testURL, prst.2)
    else if (¬ (prst.1.2 = 404) ∧ ¬ (prst.1.2 = 0)) ∧
        (prst.1.2 = 403 ∨ prst.1.2 = 429 ∨ prst.1.2 ≥ 500) then
      (.abandoned, prst.2)
    else probeLoop env lc baseURL canonical rest prst.2

mutual

/-- crawl from the crawl driver.  The fuel argument bounds the remaining
recursion depth; the Go function needs none because the depth guard
already bounds the recursion, and with fuel at least maxDepth + 1 - depth
(as Fetch supplies) the fuel-exhaustion branches are unreachable, so the
model computes exactly what the Go code does. -/
def crawl (env : Env) (cfg : Option LocaleConfig) (domain : GoStr)
    (maxDepth : Nat) (crawlDir : GoStr) (fuel : Nat) (targetURL : GoStr)
    (depth : Nat) (st : CrawlState) : CrawlState × Option FetchErr :=
  if fuel = 0 then (st, none)
  else if depth > maxDepth then (st, none)
  else if ¬ env.robots targetURL then (st, none)
  else
    match cfg with
    | some lc =>
      match env.parseURL targetURL with
      | none => (st, none)
      | some u =>
        let canonical := (ExtractLocale u (some lc)).2
        if canonical ∈ st.visitedCanonical then (st, none)
        else
          crawlWithLocalePriority env lc domain maxDepth crawlDir fuel
            targetURL canonical depth
            { st with visitedCanonical := canonical :: st.visitedCanonical }
    | none =>
      if targetURL ∈ st.visited then (st, none)
      else
        match env.parseURL targetURL with
        | none => ({ st with visited := targetURL :: st.visited }, none)
        | some u =>
          standardBody env domain maxDepth crawlDir fuel targetURL u depth
            { st with visited := targetURL :: st.visited }
termination_by (fuel, 0, 2)

/-- The fetch tail of crawl in standard mode (after the URL has been
marked visited and parsed): domain and resource checks, the GET, status,
content type and body checks, the file write at getFilePath, the download
counter, and the recursion into the links at depth + 1 (with the locale
configuration still disabled, as it is constant over a session). -/
def standardBody (env : Env) (domain : GoStr) (maxDepth : Nat)
    (crawlDir : GoStr) (fuel : Nat) (targetURL : GoStr) (u : URLModel)
    (depth : Nat) (st : CrawlState) : CrawlState × Option FetchErr :=
  if fuel = 0 then (st, none)
  else if ¬ (u.host = domain) then (st, none)
  else if isNonHTMLResource targetURL then (st, none)
  else if ¬ env.newReqOk targetURL then (st, none)
  else
    let st2 := { st with fetched := (targetURL, depth) :: st.fetched }
    match env.get targetURL with
    | .netErr => (st2, none)
    | .resp status ct bodyOk parsed =>
      if ¬ (status = 200) then (st2, none)
      else if ¬ containsStr ct (gs "text/html") ∧ ¬ (ct = []) then
        (st2, none)
      else if ¬ bodyOk then (st2, none)
      else
        let fp := getFilePath crawlDir u
        if ¬ env.mkdirOk fp then (st2, none)
        else if ¬ env.writeOk fp then (st2, none)
        else
          let st3 := { st2 with downloadCount := st2.downloadCount + 1 }
          match parsed with
          | none => (st3, none)
          | some links =>
            crawlList env none domain maxDepth crawlDir (fuel - 1)
              links (depth + 1) st3
termination_by (fuel, 0, 0)

/-- crawlWithLocalePriority from the crawl driver: domain, resource and
robots checks, then the locale probing loop, then the fallback probe of
the original URL, then the body fetch. -/
def crawlWithLocalePriority (env : Env) (lc : LocaleConfig) (domain : GoStr)
    (maxDepth : Nat) (crawlDir : GoStr) (fuel : Nat)
    (originalURL canonical : GoStr) (depth : Nat) (st : CrawlState) :
    CrawlState × Option FetchErr :=
  match env.parseURL originalURL with
  | none => (st, none)
  | some u =>
    if ¬ (u.host = domain) then (st, none)
    else if isNonHTMLResource originalURL then (st, none)
    else if ¬ env.robots originalURL then (st, none)
    else
      let baseURL := u.scheme ++ gs "://" ++ u.host
      let priority :=
        if lc.Priority = [] then DefaultLocalePriority else lc.Priority
      match probeLoop env lc baseURL canonical priority st with
      | (.abandoned, st2) => (st2, none)
      | (.found fetchURL, st2) =>
        localeBody env lc domain maxDepth crawlDir fuel u canonical fetchURL
          depth st2
      | (.exhausted, st2) =>
        let prst := checkURLExists env originalURL st2
        if prst.1.1 then
          localeBody env lc domain maxDepth crawlDir fuel u canonical
            originalURL depth prst.2
        else (prst.2, none)
termination_by (fuel, 0, 1)

/-- The body-fetch tail of crawlWithLocalePriority: GET the chosen URL,
check status, content type and body read, write the file at the path of
the original parsed URL, bump the counter, and recurse into the links at
depth + 1. -/
def localeBody (env : Env) (lc : LocaleConfig) (domain : GoStr)
    (maxDepth : Nat) (crawlDir : GoStr) (fuel : Nat) (u : URLModel)
    (canonical fetchURL : GoStr) (depth : Nat) (st : CrawlState) :
    CrawlState × Option FetchErr :=
  if fuel = 0 then (st, none)
  else if ¬ env.newReqOk fetchURL then (st, none)
  else
    let st2 := { st with
      fetchedCanonical := (canonical, depth) :: st.fetchedCanonical }
    match env.get fetchURL with
    | .netErr => (st2, none)
    | .resp status ct bodyOk parsed =>
      if ¬ (status = 200) then (st2, none)
      else if ¬ containsStr ct (gs "text/html") ∧ ¬ (ct = []) then (st2, none)
      else if ¬ bodyOk then (st2, none)
      else
        let fp := getFilePath crawlDir u
        if ¬ env.mkdirOk fp then (st2, none)
        else if ¬ env.writeOk fp then (st2, none)
        else
          let st3 := { st2 with downloadCount := st2.downloadCount + 1 }
          match parsed with
          | none => (st3, none)
          | some links =>
            crawlList env (some lc) domain maxDepth crawlDir (fuel - 1)
              links (depth + 1) st3
termination_by (fuel, 0, 0)

/-- The link loop at the tail of both crawl variants: crawl each extracted
link in order at the incremented depth, ignoring the (always nil) returned
error as the Go loop does. -/
def crawlList (env : Env) (cfg : Option LocaleConfig) (domain : GoStr)
    (maxDepth : Nat) (crawlDir : GoStr) (fuel : Nat) :
    List GoStr → Nat → CrawlState → CrawlState × Option FetchErr
  | [], _, st => (st, none)
  | link :: rest, depth, st =>
    let stp := crawl env cfg domain maxDepth crawlDir fuel link depth st
    crawlList env cfg domain maxDepth crawlDir fuel rest depth stp.1
termination_by ls d s => (fuel, ls.length + 1, 0)

end

/-- Fetch from the crawl driver: scheme defaulting and validation, host
validation, output directory reset, then the recursive crawl from depth 0
(with enough fuel that the model's fuel guards never fire). -/
def Fetch (env : Env) (cfg : Option LocaleConfig) (outputDir : GoStr)
    (maxDepth : Nat) (targetURL : GoStr) : CrawlState × Option FetchErr :=
  let target2 :=
    if ¬ ((gs "http://").isPrefixOf targetURL) ∧
        ¬ ((gs "https://").isPrefixOf targetURL)
    then gs "https://" ++ targetURL else targetURL
  match env.parseURL target2 with
  | none => (initCrawlState, some .invalidURL)
  | some u =>
    if ¬ (u.scheme = gs "http") ∧ ¬ (u.scheme = gs "https") then
      (initCrawlState, some .invalidScheme)
    else if u.host = [] then (initCrawlState, some .missingHost)
    else
      let crawlDir := joinPath3 outputDir (gs "crawl") []
      if ¬ env.removeOk crawlDir then (initCrawlState, some .removeFail)
      else if ¬ env.mkdirAllOk crawlDir then (initCrawlState, some .createFail)
      else
        crawl env cfg u.host maxDepth crawlDir (maxDepth + 1) target2 0
          initCrawlState

/-- The dedup invariant of a crawl session: every page GET was issued for a
URL (standard mode) or canonical path (locale mode) present in the
corresponding visited set, and no key was ever fetched twice. -/
def CrawlInv (st : CrawlState) : Prop :=
  (st.fetched.map Prod.fst).Nodup ∧ (∀ p ∈ st.fetched, p.1 ∈ st.visited) ∧
  (st.fetchedCanonical.map Prod.fst).Nodup ∧
  (∀ p ∈ st.fetchedCanonical, p.1 ∈ st.visitedCanonical)

/-- The pure existence/status outcome of checkURLExists, as a function of
the environment only. -/
def probeStatus (env : Env) (url : GoStr) : Bool × Nat :=
  if ¬ env.newReqOk url then (false, 0)
  else
    match env.headStatus url with
    | some s => (s = 200, s)
    | none =>
      if ¬ env.newReqOk url then (false, 0)
      else
        match env.rangeStatus url with
        | some s => (s = 200 ∨ s = 206, s)
        | none => (false, 0)

/-- The probing loop continues past a locale candidate: the candidate does
not exist and its status is not in the abandon class. -/
def probeCont (env : Env) (lc : LocaleConfig) (baseURL canonical l2 : GoStr) :
    Prop :=
  (probeStatus env (BuildLocaleURL baseURL l2 canonical (some lc))).1 = false ∧
  ¬ ((¬ ((probeStatus env (BuildLocaleURL baseURL l2 canonical (some lc))).2
        = 404) ∧
      ¬ ((probeStatus env (BuildLocaleURL baseURL l2 canonical (some lc))).2
        = 0)) ∧
     ((probeStatus env (BuildLocaleURL baseURL l2 canonical (some lc))).2
        = 403 ∨
      (probeStatus env (BuildLocaleURL baseURL l2 canonical (some lc))).2
        = 429 ∨
      (probeStatus env (BuildLocaleURL baseURL l2 canonical (some lc))).2
        ≥ 500))

/-- The probing loop abandons the canonical path at a locale candidate: the
candidate does not exist and its status is forbidden, rate-limited or a
server error (and neither 404 nor the 0 of a transport failure). -/
def probeAbandon (env : Env) (lc : LocaleConfig)
    (baseURL canonical l2 : GoStr) : Prop :=
  (probeStatus env (BuildLocaleURL baseURL l2 canonical (some lc))).1 = false ∧
  (¬ ((probeStatus env (BuildLocaleURL baseURL l2 canonical (some lc))).2
      = 404) ∧
   ¬ ((probeStatus env (BuildLocaleURL baseURL l2 canonical (some lc))).2
      = 0)) ∧
  ((probeStatus env (BuildLocaleURL baseURL l2 canonical (some lc))).2
      = 403 ∨
   (probeStatus env (BuildLocaleURL baseURL l2 canonical (some lc))).2
      = 429 ∨
   (probeStatus env (BuildLocaleURL baseURL l2 canonical (some lc))).2
      ≥ 500)

/-- The depth discipline of one crawl step starting at a given depth: every
page GET on record afterwards was either already on record or was issued at
a depth between the current one and maxDepth. -/
def DepthExt (maxDepth depth : Nat) (st st2 : CrawlState) : Prop :=
  (∀ p ∈ st2.fetched, p ∈ st.fetched ∨ (depth ≤ p.2 ∧ p.2 ≤ maxDepth)) ∧
  (∀ p ∈ st2.fetchedCanonical,
    p ∈ st.fetchedCanonical ∨ (depth ≤ p.2 ∧ p.2 ≤ maxDepth))

/-- A concrete environment whose robots callback denies every URL, for
exercising the early-return branches of crawl on concrete inputs. -/
def envRobotsOff : Env :=
  { parseURL := fun _ => none, robots := fun _ => false,
    newReqOk := fun _ => false, get := fun _ => .netErr,
    headStatus := fun _ => none, rangeStatus := fun _ => none,
    mkdirOk := fun _ => false, writeOk := fun _ => false,
    removeOk := fun _ => false, mkdirAllOk := fun _ => false }

/-- A concrete session state holding one recorded page GET. -/
def stW : CrawlState := ⟨[gs "u"], [], [(gs "u", 1)], [], [], 1⟩

/-- A concrete locale configuration: path-based detection with the single
priority locale en. -/
def lcW : LocaleConfig := ⟨[gs "en"], []⟩

/-- A concrete environment whose HEAD probe of the en candidate of /page
answers 403 (and 404 anywhere else), for exercising the abandon branch of
the locale probing loop. -/
def envProbeA : Env :=
  { parseURL := fun _ => some ⟨gs "https", gs "example.com", gs "/page", []⟩,
    robots := fun _ => true, newReqOk := fun _ => true,
    get := fun _ => .netErr,
    headStatus := fun s =>
      if s = gs "https://example.com/en/page" then some 403 else some 404,
    rangeStatus := fun _ => none, mkdirOk := fun _ => false,
    writeOk := fun _ => false, removeOk := fun _ => true,
    mkdirAllOk := fun _ => true }

/-- A concrete environment whose HEAD probe answers 404 everywhere, for
exercising the fallback probe of the original URL. -/
def envProbeB : Env :=
  { parseURL := fun _ => some ⟨gs "https", gs "example.com", gs "/page", []⟩,
    robots := fun _ => true, newReqOk := fun _ => true,
    get := fun _ => .netErr,
    headStatus := fun _ => some 404,
    rangeStatus := fun _ => none, mkdirOk := fun _ => false,
    writeOk := fun _ => false, removeOk := fun _ => true,
    mkdirAllOk := fun _ => true }

theorem foldl_ruleStep_snd (path : GoStr) (v : Bool) :
    ∀ (l : List GoStr) (b : Bool) (m : Nat),
      (l.foldl (ruleStep path v) (b, m)).2 = max m (mml path l) := by
  intro l
  induction l with
  | nil => intro b m; simp [mml]
  | cons r t ih =>
    intro b m
    simp only [List.foldl_cons, ruleStep, mml]
    by_cases hm : pathMatches path r = true
    · by_cases hlt : m < r.length
      · simp only [hm, hlt, and_self, if_true, ih, if_pos trivial]
        omega
      · simp only [hm, hlt, and_false, if_false, ih]
        simp only [hm, if_true]
        omega
    · simp [hm, ih]

theorem foldl_ruleStep_fst (path : GoStr) (v : Bool) :
    ∀ (l : List GoStr) (b : Bool) (m : Nat),
      (l.foldl (ruleStep path v) (b, m)).1 =
        if m < mml path l then v else b := by
  intro l
  induction l with
  | nil => intro b m; simp [mml]
  | cons r t ih =>
    intro b m
    simp only [List.foldl_cons, ruleStep, mml]
    by_cases hm : pathMatches path r = true
    · by_cases hlt : m < r.length
      · simp only [hm, hlt, and_self, if_true, ih]
        have : m < max r.length (mml path t) := by omega
        simp only [hm, if_true, this, if_pos]
        by_cases h2 : r.length < mml path t <;> simp [h2]
      · simp only [hm, hlt, and_false, if_false, ih, hm, if_true]
        by_cases h2 : m < mml path t
        · rw [if_pos h2, if_pos (by omega)]
        · rw [if_neg h2, if_neg (by omega)]
    · simp [hm, ih]

/-- Characterisation of the IsAllowed scanning loops: the verdict is
disallowed exactly when the longest matching disallow rule is strictly longer
than the longest matching allow rule. -/
theorem IsAllowed_eq (al dl : List GoStr) (path : GoStr) :
    IsAllowed al dl path = decide (mml path dl ≤ mml path al) := by
  unfold IsAllowed
  have h1 := foldl_ruleStep_snd path true al true 0
  have h2 := foldl_ruleStep_fst path true al true 0
  have h3 := foldl_ruleStep_fst path false dl
    (al.foldl (ruleStep path true) (true, 0)).1
    (al.foldl (ruleStep path true) (true, 0)).2
  rw [show (al.foldl (ruleStep path true) (true, 0)) =
      ((al.foldl (ruleStep path true) (true, 0)).1,
       (al.foldl (ruleStep path true) (true, 0)).2) from rfl] at h3 ⊢
  rw [h3, h1, h2]
  simp only [ite_self, Nat.zero_max]
  by_cases h : mml path al < mml path dl
  · simp [h, Nat.not_le.mpr h]
  · have hle := Nat.not_lt.mp h
    simp [h, hle]

theorem mml_ge_of_mem (path r : GoStr) :
    ∀ l : List GoStr, r ∈ l → pathMatches path r = true → r.length ≤ mml path l := by
  intro l
  induction l with
  | nil => intro h; cases h
  | cons s t ih =>
    intro hmem hm
    rcases List.mem_cons.mp hmem with h | h
    · subst h; simp [mml, hm]
    · have := ih h hm
      simp only [mml]
      by_cases hs : pathMatches path s = true <;> simp [hs] <;> omega

theorem mml_cases (path : GoStr) :
    ∀ l : List GoStr, mml path l = 0 ∨
      ∃ r ∈ l, pathMatches path r = true ∧ mml path l = r.length := by
  intro l
  induction l with
  | nil => left; rfl
  | cons s t ih =>
    simp only [mml]
    by_cases hs : pathMatches path s = true
    · simp only [hs, if_true]
      rcases ih with h | ⟨r, hr, hmr, he⟩
      · right; exact ⟨s, List.mem_cons_self .., hs, by omega⟩
      · rcases Nat.le_total s.length (mml path t) with hle | hle
        · right
          exact ⟨r, List.mem_cons_of_mem _ hr, hmr, by omega⟩
        · right; exact ⟨s, List.mem_cons_self .., hs, by omega⟩
    · simp only [hs, if_false]
      rcases ih with h | ⟨r, hr, hmr, he⟩
      · left; exact h
      · right; exact ⟨r, List.mem_cons_of_mem _ hr, hmr, he⟩

theorem mml_perm (path : GoStr) {l l' : List GoStr} (h : l.Perm l') :
    mml path l = mml path l' := by
  apply Nat.le_antisymm
  · rcases mml_cases path l with h0 | ⟨r, hr, hmr, he⟩
    · omega
    · rw [he]; exact mml_ge_of_mem path r l' (h.mem_iff.mp hr) hmr
  · rcases mml_cases path l' with h0 | ⟨r, hr, hmr, he⟩
    · omega
    · rw [he]; exact mml_ge_of_mem path r l (h.mem_iff.mpr hr) hmr

theorem pathMatches_ne_nil {path r : GoStr} (h : pathMatches path r = true) :
    r ≠ [] := by
  intro he; subst he; simp [pathMatches] at h

/-- C1: when every pair of distinct matching rules (across the allow and the
disallow lists) has different lengths, the IsAllowed verdict is the verdict of
the longest matching rule r, for any reordering of the two rule lists; and in
the concrete scenario Disallow /docs/ with Allow /docs/public/, the path
/docs/public/page.html is allowed while /docs/private/page.html is
disallowed. -/
theorem robots_longest_match_wins
    (al dl al2 dl2 : List GoStr) (path r : GoStr)
    (hmem : r ∈ al ∨ r ∈ dl)
    (hmatch : pathMatches path r = true)
    (hmax : ∀ s, (s ∈ al ∨ s ∈ dl) → pathMatches path s = true →
      s.length ≤ r.length)
    (hdist : ∀ s t, (s ∈ al ∨ s ∈ dl) → (t ∈ al ∨ t ∈ dl) →
      pathMatches path s = true → pathMatches path t = true → s ≠ t →
      s.length ≠ t.length)
    (hpa : al2.Perm al) (hpd : dl2.Perm dl) :
    IsAllowed al2 dl2 path = decide (r ∈ al) ∧
    IsAllowed [gs "/docs/public/"] [gs "/docs/"] (gs "/docs/public/page.html")
      = true ∧
    IsAllowed [gs "/docs/public/"] [gs "/docs/"] (gs "/docs/private/page.html")
      = false := by
  refine ⟨?_, by decide, by decide⟩
  rw [IsAllowed_eq, mml_perm path hpa, mml_perm path hpd]
  by_cases hr : r ∈ al
  · have h1 : mml path al = r.length := by
      have := mml_ge_of_mem path r al hr hmatch
      rcases mml_cases path al with h0 | ⟨s, hs, hms, he⟩
      · omega
      · have := hmax s (Or.inl hs) hms; omega
    have h2 : mml path dl ≤ r.length := by
      rcases mml_cases path dl with h0 | ⟨s, hs, hms, he⟩
      · omega
      · have := hmax s (Or.inr hs) hms; omega
    simp [hr, h1]; omega
  · have hrd : r ∈ dl := by tauto
    have h1 : mml path dl = r.length := by
      have := mml_ge_of_mem path r dl hrd hmatch
      rcases mml_cases path dl with h0 | ⟨s, hs, hms, he⟩
      · omega
      · have := hmax s (Or.inr hs) hms; omega
    have h2 : mml path al < r.length := by
      rcases mml_cases path al with h0 | ⟨s, hs, hms, he⟩
      · have := pathMatches_ne_nil hmatch
        have : 0 < r.length := List.length_pos.mpr this
        omega
      · have hle := hmax s (Or.inl hs) hms
        have hne : s ≠ r := fun he2 => hr (he2 ▸ hs)
        have := hdist s r (Or.inl hs) (Or.inr hrd) hms hmatch hne
        omega
    simp [hr, h1]; omega

/-- C1 witness: the theorem instantiated on the concrete /docs scenario. -/
theorem robots_longest_match_wins_witness :
    IsAllowed [gs "/docs/public/"] [gs "/docs/"] (gs "/docs/public/page.html")
      = decide (gs "/docs/public/" ∈ [gs "/docs/public/"]) := by
  have h := robots_longest_match_wins [gs "/docs/public/"] [gs "/docs/"]
    [gs "/docs/public/"] [gs "/docs/"] (gs "/docs/public/page.html")
    (gs "/docs/public/") (Or.inl (by simp)) (by decide)
    (by
      intro s hs hm
      rcases hs with hs | hs <;> simp only [List.mem_singleton] at hs <;>
        subst hs <;> decide)
    (by
      intro s t hs ht hms hmt hne
      rcases hs with hs | hs <;> rcases ht with ht | ht <;>
        simp only [List.mem_singleton] at hs ht <;> subst hs <;> subst ht <;>
        first
        | exact absurd rfl hne
        | decide)
    (List.Perm.refl _) (List.Perm.refl _)
  exact h.1

/-- C4 counterexample: with the equal-length rules Allow /docs/ and
Disallow /docs/ both matching /docs/x and nothing longer matching, the code
returns allowed, not disallowed: the equal-length disallow does not override
the allow, because an update requires a strictly longer rule. -/
theorem robots_equal_tie_counterexample :
    pathMatches (gs "/docs/x") (gs "/docs/") = true ∧
    IsAllowed [gs "/docs/"] [gs "/docs/"] (gs "/docs/x") = true := by
  decide

/-- C4 amended: when an allow rule and a disallow rule of equal length both
match a path and no strictly longer rule matches, the verdict is allowed: the
scanning loops only override on a strictly longer rule, so the allow list,
scanned first, wins equal-length ties and an equal-length disallow cannot
override an equal-length allow. -/
theorem robots_equal_tie_allow_wins
    (al dl : List GoStr) (path a d : GoStr)
    (ha : a ∈ al) (hd : d ∈ dl)
    (hma : pathMatches path a = true) (hmd : pathMatches path d = true)
    (hlen : a.length = d.length)
    (hmax : ∀ s, (s ∈ al ∨ s ∈ dl) → pathMatches path s = true →
      s.length ≤ a.length) :
    IsAllowed al dl path = true := by
  rw [IsAllowed_eq]
  have h1 : mml path al = a.length := by
    have := mml_ge_of_mem path a al ha hma
    rcases mml_cases path al with h0 | ⟨s, hs, hms, he⟩
    · omega
    · have := hmax s (Or.inl hs) hms; omega
  have h2 : mml path dl ≤ a.length := by
    rcases mml_cases path dl with h0 | ⟨s, hs, hms, he⟩
    · omega
    · have := hmax s (Or.inr hs) hms; omega
  simp [h1]; omega

theorem goIndex_le (hay needle : GoStr) :
    ∀ j : Nat, needle.isPrefixOf (hay.drop j) = true →
      ∃ i, i ≤ j ∧ goIndex hay needle = some i := by
  induction hay with
  | nil =>
    intro j h
    simp only [List.drop_nil] at h
    have hn : needle = [] := by
      cases needle with
      | nil => rfl
      | cons c t => simp [List.isPrefixOf] at h
    subst hn
    exact ⟨0, Nat.zero_le _, by simp [goIndex]⟩
  | cons c t ih =>
    intro j h
    by_cases hp : needle.isPrefixOf (c :: t) = true
    · exact ⟨0, Nat.zero_le _, by simp [goIndex, hp]⟩
    · cases j with
      | zero => rw [List.drop_zero] at h; exact absurd h hp
      | succ j2 =>
        rw [List.drop_succ_cons] at h
        obtain ⟨i, hle, heq⟩ := ih j2 h
        exact ⟨i + 1, by omega, by simp [goIndex, hp, heq]⟩

theorem goIndex_spec (hay needle : GoStr) :
    ∀ i : Nat, goIndex hay needle = some i →
      needle.isPrefixOf (hay.drop i) = true := by
  induction hay with
  | nil =>
    intro i h
    by_cases hn : needle = []
    · subst hn
      have he : goIndex ([] : GoStr) [] = some 0 := rfl
      rw [he] at h
      cases h
      simp [List.isPrefixOf]
    · simp [goIndex, hn] at h
  | cons c t ih =>
    intro i h
    by_cases hp : needle.isPrefixOf (c :: t) = true
    · simp only [goIndex, hp, if_true] at h
      cases h
      simpa using hp
    · simp only [goIndex, hp, Bool.false_eq_true, if_false] at h
      cases hgt : goIndex t needle with
      | none => rw [hgt] at h; exact Option.noConfusion h
      | some i2 =>
        rw [hgt] at h
        cases h
        rw [List.drop_succ_cons]
        exact ih i2 hgt

theorem fragsFrom_mono (path : GoStr) (fs : List GoStr) :
    ∀ p q : Nat, p ≤ q → fragsFrom path fs q → fragsFrom path fs p := by
  cases fs with
  | nil => intro p q _ _; trivial
  | cons f ft =>
    intro p q hpq h
    obtain ⟨i, hqi, hocc, hrest⟩ := h
    exact ⟨i, by omega, hocc, hrest⟩

theorem splitChar_ne_nil (c : Char) (s : GoStr) : splitChar c s ≠ [] := by
  cases s with
  | nil => simp [splitChar]
  | cons x xs =>
    by_cases hx : x = c
    · simp [splitChar, hx]
    · simp only [splitChar, hx, if_neg, Bool.false_eq_true]
      cases h : splitChar c xs with
      | nil => simp
      | cons hd tl => simp [hx, h]

theorem splitChar_cons_ne (c x : Char) (xs : GoStr) (h : x ≠ c) :
    ∃ hd tl, splitChar c (x :: xs) = (x :: hd) :: tl ∧
      splitChar c xs = hd :: tl := by
  cases he : splitChar c xs with
  | nil => exact absurd he (splitChar_ne_nil c xs)
  | cons hd tl => exact ⟨hd, tl, by simp [splitChar, h, he], rfl⟩

theorem wildcardLoop_cons_nil (path : GoStr) (ls : Bool) (rest : List GoStr)
    (i pos : Nat) :
    wildcardLoop path ls ([] :: rest) i pos =
      wildcardLoop path ls rest (i + 1) pos := by
  simp [wildcardLoop]

theorem wildcardLoop_cons_none (path : GoStr) (ls : Bool) (p : GoStr)
    (rest : List GoStr) (i pos : Nat) (hp : p ≠ [])
    (hgi : goIndex (path.drop pos) p = none) :
    wildcardLoop path ls (p :: rest) i pos = none := by
  simp [wildcardLoop, hp, hgi]

theorem wildcardLoop_cons_some (path : GoStr) (ls : Bool) (p : GoStr)
    (rest : List GoStr) (i pos idx : Nat) (hp : p ≠ [])
    (hgi : goIndex (path.drop pos) p = some idx) :
    wildcardLoop path ls (p :: rest) i pos =
      if i = 0 ∧ ls = false ∧ idx ≠ 0 then none
      else wildcardLoop path ls rest (i + 1) (pos + idx + p.length) := by
  simp [wildcardLoop, hp, hgi]

/-- The wildcard scanning loop succeeds exactly when the remaining non-empty
fragments occur in order from the current position, provided the index-0 pin
does not apply (a leading-asterisk pattern or a loop index past the first). -/
theorem wildcardLoop_iff (path : GoStr) (ls : Bool) :
    ∀ (parts : List GoStr) (i pos : Nat), (ls = true ∨ 1 ≤ i) →
      ((wildcardLoop path ls parts i pos).isSome = true ↔
        fragsFrom path (parts.filter (fun p => p ≠ [])) pos) := by
  intro parts
  induction parts with
  | nil => intro i pos _; simp [wildcardLoop, fragsFrom]
  | cons p rest ih =>
    intro i pos hnp
    by_cases hp : p = []
    · subst hp
      rw [wildcardLoop_cons_nil, List.filter_cons]
      rw [ih (i + 1) pos (by omega)]
      simp
    · rw [List.filter_cons]
      have hfil : (fun q => decide (q ≠ [])) p = true := by simp [hp]
      rw [if_pos hfil]
      cases hgi : goIndex (path.drop pos) p with
      | none =>
        rw [wildcardLoop_cons_none path ls p rest i pos hp hgi]
        simp only [Option.isSome_none, Bool.false_eq_true, false_iff]
        intro hcon
        obtain ⟨k, hk, hocc, hrest⟩ := hcon
        unfold occursAt at hocc
        rw [show k = pos + (k - pos) from by omega, ← List.drop_drop] at hocc
        obtain ⟨i2, _, heq⟩ := goIndex_le (path.drop pos) p (k - pos) hocc
        rw [hgi] at heq
        exact Option.noConfusion heq
      | some idx =>
        have hpin : ¬ (i = 0 ∧ ls = false ∧ idx ≠ 0) := by
          rcases hnp with h | h
          · rintro ⟨_, h2, _⟩; rw [h] at h2; exact Bool.noConfusion h2
          · rintro ⟨h1, _, _⟩; omega
        rw [wildcardLoop_cons_some path ls p rest i pos idx hp hgi,
          if_neg hpin, ih (i + 1) (pos + idx + p.length) (by omega)]
        constructor
        · intro hrest
          refine ⟨pos + idx, by omega, ?_, hrest⟩
          have hps := goIndex_spec (path.drop pos) p idx hgi
          rw [List.drop_drop] at hps
          exact hps
        · intro hcon
          obtain ⟨k, hk, hocc, hrest⟩ := hcon
          unfold occursAt at hocc
          rw [show k = pos + (k - pos) from by omega, ← List.drop_drop] at hocc
          obtain ⟨i2, hile, heq⟩ := goIndex_le (path.drop pos) p (k - pos) hocc
          rw [hgi] at heq
          have hii : idx = i2 := Option.some.inj heq
          exact fragsFrom_mono path _ (pos + idx + p.length) (k + p.length)
            (by omega) hrest

theorem wildcardMatch_false_eq (path pattern : GoStr) :
    wildcardMatch path pattern false =
      (wildcardLoop path ((gs "*").isPrefixOf pattern)
        (splitChar '*' pattern) 0 0).isSome := by
  simp only [wildcardMatch]
  cases h : wildcardLoop path ((gs "*").isPrefixOf pattern)
      (splitChar '*' pattern) 0 0 with
  | none => simp
  | some pos => simp

theorem containsStr_take {l sub : GoStr} (n : Nat)
    (h : containsStr (l.take n) sub = true) : containsStr l sub = true := by
  unfold containsStr at h ⊢
  rw [Option.isSome_iff_exists] at h
  obtain ⟨i, hi⟩ := h
  have hp := goIndex_spec (l.take n) sub i hi
  rw [List.isPrefixOf_iff_prefix] at hp
  have hp2 : sub <+: l.drop i := by
    refine hp.trans ?_
    rw [List.drop_take]
    exact List.take_prefix _ _
  rw [← List.isPrefixOf_iff_prefix] at hp2
  obtain ⟨j, _, hj⟩ := goIndex_le l sub i hp2
  rw [Option.isSome_iff_exists]
  exact ⟨j, hj⟩

/-- The wildcard matcher without the end anchor accepts exactly the
specification-side in-order fragment condition. -/
theorem wildcardMatch_iff (path pattern : GoStr) (hne : pattern ≠ []) :
    wildcardMatch path pattern false = true ↔ fragSpec path pattern := by
  by_cases hls : (gs "*").isPrefixOf pattern = true
  · rw [wildcardMatch_false_eq, hls,
      wildcardLoop_iff path true (splitChar '*' pattern) 0 0 (Or.inl rfl)]
    unfold fragSpec nonEmptyFrags
    rw [if_pos hls]
  · obtain ⟨x, xs, rfl⟩ : ∃ x xs, pattern = x :: xs := by
      cases pattern with
      | nil => exact absurd rfl hne
      | cons a b => exact ⟨a, b, rfl⟩
    have hx : x ≠ '*' := by
      intro he
      subst he
      exact hls (by simp [gs, List.isPrefixOf])
    have hlsf : (gs "*").isPrefixOf (x :: xs) = false := by
      cases hb : (gs "*").isPrefixOf (x :: xs) with
      | false => rfl
      | true => exact absurd hb hls
    obtain ⟨hd2, tl, hsp, _⟩ := splitChar_cons_ne '*' x xs hx
    have hxh : x :: hd2 ≠ [] := by simp
    have hspec : fragSpec path (x :: xs) =
        (occursAt path (x :: hd2) 0 ∧
          fragsFrom path (tl.filter (fun p => p ≠ [])) (x :: hd2).length) := by
      unfold fragSpec nonEmptyFrags
      rw [hlsf]
      simp only [Bool.false_eq_true, if_false]
      rw [hsp, List.filter_cons, if_pos (by simp)]
    rw [wildcardMatch_false_eq, hlsf, hsp, hspec]
    cases hgi : goIndex (path.drop 0) (x :: hd2) with
    | none =>
      rw [wildcardLoop_cons_none path false (x :: hd2) tl 0 0 hxh hgi]
      simp only [Option.isSome_none, Bool.false_eq_true, false_iff]
      intro hcon
      obtain ⟨hocc, _⟩ := hcon
      unfold occursAt at hocc
      obtain ⟨i2, hle, heq⟩ := goIndex_le path (x :: hd2) 0 hocc
      rw [List.drop_zero] at hgi
      rw [hgi] at heq
      exact Option.noConfusion heq
    | some idx =>
      rw [wildcardLoop_cons_some path false (x :: hd2) tl 0 0 idx hxh hgi]
      by_cases hidx : idx = 0
      · subst hidx
        rw [if_neg (by simp)]
        rw [wildcardLoop_iff path false tl 1 (0 + 0 + (x :: hd2).length)
          (Or.inr (le_refl 1))]
        have hocc : occursAt path (x :: hd2) 0 := by
          unfold occursAt
          have := goIndex_spec (path.drop 0) (x :: hd2) 0 hgi
          rwa [List.drop_zero, ← List.drop_zero path] at this
        constructor
        · intro hrest
          exact ⟨hocc, by simpa using hrest⟩
        · intro hcon
          simpa using hcon.2
      · rw [if_pos ⟨rfl, rfl, hidx⟩]
        simp only [Option.isSome_none, Bool.false_eq_true, false_iff]
        intro hcon
        obtain ⟨hocc, _⟩ := hcon
        unfold occursAt at hocc
        obtain ⟨i2, hle, heq⟩ := goIndex_le path (x :: hd2) 0 hocc
        rw [show path.drop 0 = path from List.drop_zero path] at hgi
        rw [hgi] at heq
        have := Option.some.inj heq
        omega

theorem dollarSuffix_ne_nil {pattern : GoStr}
    (h : (gs "$").isSuffixOf pattern = true) : pattern ≠ [] := by
  intro he
  subst he
  simp [gs, List.isSuffixOf] at h

theorem pathMatches_plain_eq (path pattern : GoStr) (hne : pattern ≠ [])
    (hdol : (gs "$").isSuffixOf pattern = false)
    (hc : containsStr pattern (gs "*") = false) :
    pathMatches path pattern = pattern.isPrefixOf path := by
  simp only [pathMatches, if_neg hne, hdol, hc, Bool.false_eq_true, if_false]

theorem pathMatches_dollar_eq (path pattern : GoStr)
    (hdol : (gs "$").isSuffixOf pattern = true)
    (hcs : containsStr (pattern.take (pattern.length - 1)) (gs "*") = false) :
    pathMatches path pattern =
      decide (path = pattern.take (pattern.length - 1)) := by
  have hne := dollarSuffix_ne_nil hdol
  simp only [pathMatches, if_neg hne, hdol, hcs, Bool.false_eq_true, if_false,
    if_true]

theorem pathMatches_star_eq (path pattern : GoStr)
    (hdol : (gs "$").isSuffixOf pattern = false)
    (hc : containsStr pattern (gs "*") = true) :
    pathMatches path pattern = wildcardMatch path pattern false := by
  have hne : pattern ≠ [] := by
    intro he
    subst he
    simp [containsStr, goIndex, gs] at hc
  simp only [pathMatches, if_neg hne, hdol, hc, Bool.false_eq_true, if_false,
    if_true]

/-- C5 amended: the clauses of the pathMatches contract, with the
end-anchor clause restricted to asterisk-free patterns and the wildcard
clause restricted to unanchored patterns (a pattern carrying both an
asterisk and a trailing dollar is matched by the wildcard scan with an
end-of-path requirement, not by exact equality), and the plain-equality
clause restricted to non-empty patterns. -/
theorem pathMatches_clauses (path pattern : GoStr) :
    (pattern ≠ [] → containsStr pattern (gs "*") = false →
      (gs "$").isSuffixOf pattern = false → path = pattern →
      pathMatches path pattern = true) ∧
    ((gs "/").isPrefixOf path = true → pathMatches path (gs "/") = true) ∧
    (containsStr pattern (gs "*") = false →
      (gs "$").isSuffixOf pattern = true →
      (pathMatches path pattern = true ↔
        path = pattern.take (pattern.length - 1))) ∧
    (containsStr pattern (gs "*") = true →
      (gs "$").isSuffixOf pattern = false →
      (pathMatches path pattern = true ↔ fragSpec path pattern)) := by
  refine ⟨?_, ?_, ?_, ?_⟩
  · intro hne hc hdol heq
    subst heq
    rw [pathMatches_plain_eq path path hne hdol hc]
    simp [List.isPrefixOf_iff_prefix]
  · intro hpre
    rw [pathMatches_plain_eq path (gs "/") (by decide) (by decide) (by decide)]
    exact hpre
  · intro hc hdol
    have hcs : containsStr (pattern.take (pattern.length - 1)) (gs "*")
        = false := by
      cases hb : containsStr (pattern.take (pattern.length - 1)) (gs "*") with
      | false => rfl
      | true => exact absurd (containsStr_take _ hb) (by simp [hc])
    rw [pathMatches_dollar_eq path pattern hdol hcs]
    simp
  · intro hc hdol
    have hne : pattern ≠ [] := by
      intro he
      subst he
      simp [containsStr, goIndex, gs] at hc
    rw [pathMatches_star_eq path pattern hdol hc]
    exact wildcardMatch_iff path pattern hne

/-- C5 counterexample: the claim fails as stated on two inputs: the pattern
with both an asterisk and a trailing dollar /a*b$ matches the path /aXb even
though the path differs from the dollar-stripped pattern /a*b, contradicting
the exact-equality clause; and the empty pattern does not match the equal
empty path, contradicting the plain-equality clause. -/
theorem pathMatches_clauses_counterexample :
    pathMatches (gs "/aXb") (gs "/a*b$") = true ∧ gs "/aXb" ≠ gs "/a*b" ∧
    pathMatches (gs "") (gs "") = false := by
  decide

/-- C5 witness: the plain-equality clause applied to the concrete pattern
/docs/ and the equal path. -/
theorem pathMatches_clauses_witness :
    pathMatches (gs "/docs/") (gs "/docs/") = true :=
  (pathMatches_clauses (gs "/docs/") (gs "/docs/")).1 (by decide) (by decide)
    (by decide) rfl

theorem parseLine_init (userAgent l : GoStr)
    (h : ∃ i, goIndex (trimSpace l) (gs ":") = some i ∧
      (lowerStr (trimSpace ((trimSpace l).take i)) = gs "disallow" ∨
       lowerStr (trimSpace ((trimSpace l).take i)) = gs "allow")) :
    parseLine userAgent initParseState l = initParseState := by
  obtain ⟨i, hgi, hkey⟩ := h
  by_cases hskip : (trimSpace l = [] ∨ (gs "#").isPrefixOf (trimSpace l) = true)
  · simp only [parseLine]
    rw [if_pos hskip]
  · simp only [parseLine, hgi]
    rw [if_neg hskip]
    rcases hkey with hk | hk
    · rw [hk]
      rw [if_neg (by decide : ¬ (gs "disallow" = gs "user-agent"))]
      rw [if_pos rfl]
      by_cases hv : trimSpace ((trimSpace l).drop (i + 1)) = []
      · rw [if_pos hv]
      · rw [if_neg hv]
        rw [if_neg (by decide : ¬ (initParseState.matchesUs = true))]
        rw [if_neg (by decide : ¬ (initParseState.currentUserAgent = gs "*"))]
    · rw [hk]
      rw [if_neg (by decide : ¬ (gs "allow" = gs "user-agent"))]
      rw [if_neg (by decide : ¬ (gs "allow" = gs "disallow"))]
      rw [if_pos rfl]
      rw [if_neg (by decide : ¬ (initParseState.matchesUs = true))]
      rw [if_neg (by decide : ¬ (initParseState.currentUserAgent = gs "*"))]

theorem foldl_parseLine_init (userAgent : GoStr) (pre : List GoStr)
    (hpre : ∀ l ∈ pre, ∃ i, goIndex (trimSpace l) (gs ":") = some i ∧
      (lowerStr (trimSpace ((trimSpace l).take i)) = gs "disallow" ∨
       lowerStr (trimSpace ((trimSpace l).take i)) = gs "allow")) :
    pre.foldl (parseLine userAgent) initParseState = initParseState := by
  induction pre with
  | nil => rfl
  | cons l t ih =>
    rw [List.foldl_cons, parseLine_init userAgent l (hpre l (by simp))]
    exact ih (fun l2 hl2 => hpre l2 (by simp [hl2]))

/-- C10: Disallow and Allow directive lines appearing before the first
User-agent line are ignored by parseRobotsTxt: parsing an input with such a
preamble yields exactly the rule sets of the input without it, so the
preamble can never influence an IsAllowed verdict. -/
theorem preamble_directives_ignored (userAgent : GoStr)
    (pre post : List GoStr)
    (hpre : ∀ l ∈ pre, ∃ i, goIndex (trimSpace l) (gs ":") = some i ∧
      (lowerStr (trimSpace ((trimSpace l).take i)) = gs "disallow" ∨
       lowerStr (trimSpace ((trimSpace l).take i)) = gs "allow")) :
    parseRobotsTxt userAgent (pre ++ post) = parseRobotsTxt userAgent post ∧
    ∀ path,
      IsAllowed (parseRobotsTxt userAgent (pre ++ post)).allowRules
        (parseRobotsTxt userAgent (pre ++ post)).disallowRules path =
      IsAllowed (parseRobotsTxt userAgent post).allowRules
        (parseRobotsTxt userAgent post).disallowRules path := by
  have hmain : parseRobotsTxt userAgent (pre ++ post) =
      parseRobotsTxt userAgent post := by
    unfold parseRobotsTxt
    rw [List.foldl_append, foldl_parseLine_init userAgent pre hpre]
  exact ⟨hmain, fun path => by rw [hmain]⟩

/-- C10 witness: a concrete robots.txt whose first two lines are directives
outside any User-agent block parses to the same rules as without them. -/
theorem preamble_directives_ignored_witness :
    parseRobotsTxt UserAgent
      [gs "Disallow: /secret/", gs "Allow: /s/",
       gs "User-agent: *", gs "Disallow: /x/"] =
    parseRobotsTxt UserAgent [gs "User-agent: *", gs "Disallow: /x/"] := by
  have h := preamble_directives_ignored UserAgent
    [gs "Disallow: /secret/", gs "Allow: /s/"]
    [gs "User-agent: *", gs "Disallow: /x/"]
    (by
      intro l hl
      rcases List.mem_cons.mp hl with he | he
      · exact he ▸ ⟨8, by decide, Or.inl (by decide)⟩
      · rcases List.mem_cons.mp he with he2 | he2
        · exact he2 ▸ ⟨5, by decide, Or.inr (by decide)⟩
        · cases he2)
  exact h.1

/-- C4 amended witness: the equal-tie theorem applied to the concrete
Allow /docs/ versus Disallow /docs/ scenario on path /docs/x. -/
theorem robots_equal_tie_allow_wins_witness :
    IsAllowed [gs "/docs/"] [gs "/docs/"] (gs "/docs/x") = true := by
  exact robots_equal_tie_allow_wins [gs "/docs/"] [gs "/docs/"] (gs "/docs/x")
    (gs "/docs/") (gs "/docs/") (by simp) (by simp) (by decide) (by decide)
    rfl
    (by
      intro s hs hm
      rcases hs with hs | hs <;> simp only [List.mem_singleton] at hs <;>
        subst hs <;> decide)

theorem all_of_all_imp {p q : Char → Bool} {l : GoStr} (h : l.all p = true)
    (himp : ∀ c, p c = true → q c = true) : l.all q = true := by
  rw [List.all_eq_true] at h ⊢
  exact fun c hc => himp c (h c hc)

theorem takeWhile_all {p : Char → Bool} : ∀ {a : GoStr}, a.all p = true →
    a.takeWhile p = a := by
  intro a
  induction a with
  | nil => intro _; rfl
  | cons c t ih =>
    intro h
    rw [List.all_cons, Bool.and_eq_true] at h
    rw [List.takeWhile_cons, h.1]
    simp [ih h.2]

theorem takeWhile_append_all {p : Char → Bool} {a : GoStr} (b : GoStr)
    (h : a.all p = true) : (a ++ b).takeWhile p = a ++ b.takeWhile p := by
  induction a with
  | nil => rfl
  | cons c t ih =>
    rw [List.all_cons, Bool.and_eq_true] at h
    rw [List.cons_append, List.takeWhile_cons, h.1]
    simp [ih h.2]

theorem goIndex_https (r : GoStr) :
    goIndex (gs "https://" ++ r) (gs "://") = some 5 := by
  show goIndex ('h' :: 't' :: 't' :: 'p' :: 's' :: ':' :: '/' :: '/' :: r)
    (gs "://") = some 5
  simp [goIndex, List.isPrefixOf, gs]

theorem parseSimpleURL_https (host p : GoStr)
    (hh : host.all hostClean = true)
    (hp0 : p = [] ∨ startsSlash p = true)
    (hpc : p.all (fun c => ¬(c = '?') ∧ ¬(c = '#')) = true) :
    parseSimpleURL (gs "https://" ++ (host ++ p)) =
      some ⟨gs "https", host, p, []⟩ := by
  have hhH : host.all (fun c => ¬(c = '#')) = true :=
    all_of_all_imp hh (by intro c hc; simp [hostClean] at hc; simp [hc])
  have hpH : p.all (fun c => ¬(c = '#')) = true :=
    all_of_all_imp hpc (by intro c hc; simp at hc; simp [hc])
  have hhHP : host.all (fun c => ¬(c = '/') ∧ ¬(c = '?')) = true :=
    all_of_all_imp hh (by intro c hc; simp [hostClean] at hc; simp [hc])
  have hBH : (host ++ p).takeWhile (fun c => ¬(c = '#')) = host ++ p := by
    rw [takeWhile_append_all p hhH, takeWhile_all hpH]
  have hPW : p.takeWhile (fun c => ¬(c = '/') ∧ ¬(c = '?')) = [] := by
    rcases hp0 with h | h
    · subst h; rfl
    · cases p with
      | nil => rfl
      | cons c t =>
        have : c = '/' := by simpa [startsSlash] using h
        subst this
        rw [List.takeWhile_cons]
        simp
  have hHW : (host ++ p).takeWhile (fun c => ¬(c = '/') ∧ ¬(c = '?'))
      = host := by
    rw [takeWhile_append_all p hhHP, hPW, List.append_nil]
  have hPQ : p.takeWhile (fun c => ¬(c = '?')) = p :=
    takeWhile_all (all_of_all_imp hpc (by intro c hc; simp at hc; simp [hc]))
  simp only [parseSimpleURL, goIndex_https]
  have h2 : (gs "https://" ++ (host ++ p)).drop (5 + 3) = host ++ p := rfl
  rw [h2, hBH, hHW, List.drop_left, hPQ, List.drop_length]
  rfl

theorem parseSimpleURL_https_q (host p q : GoStr)
    (hh : host.all hostClean = true)
    (hp0 : p = [] ∨ startsSlash p = true)
    (hpc : p.all (fun c => ¬(c = '?') ∧ ¬(c = '#')) = true)
    (hq : q.all (fun c => ¬(c = '#')) = true) :
    parseSimpleURL (gs "https://" ++ (host ++ (p ++ ('?' :: q)))) =
      some ⟨gs "https", host, p, q⟩ := by
  have hhH : host.all (fun c => ¬(c = '#')) = true :=
    all_of_all_imp hh (by intro c hc; simp [hostClean] at hc; simp [hc])
  have hpH : p.all (fun c => ¬(c = '#')) = true :=
    all_of_all_imp hpc (by intro c hc; simp at hc; simp [hc])
  have hhHP : host.all (fun c => ¬(c = '/') ∧ ¬(c = '?')) = true :=
    all_of_all_imp hh (by intro c hc; simp [hostClean] at hc; simp [hc])
  have hBH : (host ++ (p ++ ('?' :: q))).takeWhile (fun c => ¬(c = '#'))
      = host ++ (p ++ ('?' :: q)) := by
    rw [takeWhile_append_all _ hhH, takeWhile_append_all _ hpH,
      List.takeWhile_cons, if_pos (by decide), takeWhile_all hq]
  have hPW : p.takeWhile (fun c => ¬(c = '/') ∧ ¬(c = '?')) = [] := by
    rcases hp0 with h | h
    · subst h; rfl
    · cases p with
      | nil => rfl
      | cons c t =>
        have : c = '/' := by simpa [startsSlash] using h
        subst this
        rw [List.takeWhile_cons]
        simp
  have hPW2 : (p ++ ('?' :: q)).takeWhile
      (fun c => ¬(c = '/') ∧ ¬(c = '?')) = [] := by
    rcases hp0 with h | h
    · subst h
      rw [List.nil_append, List.takeWhile_cons]
      simp
    · cases p with
      | nil =>
        rw [List.nil_append, List.takeWhile_cons]
        simp
      | cons c t =>
        have : c = '/' := by simpa [startsSlash] using h
        subst this
        rw [List.cons_append, List.takeWhile_cons]
        simp
  have hHW : (host ++ (p ++ ('?' :: q))).takeWhile
      (fun c => ¬(c = '/') ∧ ¬(c = '?')) = host := by
    rw [takeWhile_append_all _ hhHP, hPW2, List.append_nil]
  have hPQ2 : (p ++ ('?' :: q)).takeWhile (fun c => ¬(c = '?')) = p := by
    rw [takeWhile_append_all _
      (all_of_all_imp hpc (by intro c hc; simp at hc; simp [hc]))]
    rw [List.takeWhile_cons]
    simp
  simp only [parseSimpleURL, goIndex_https]
  have h2 : (gs "https://" ++ (host ++ (p ++ ('?' :: q)))).drop (5 + 3)
      = host ++ (p ++ ('?' :: q)) := rfl
  rw [h2, hBH, hHW, List.drop_left, hPQ2, List.drop_left]
  rfl

theorem goIndex_single (a b : GoStr) (c : Char)
    (ha : a.all (fun x => ¬(x = c)) = true) :
    goIndex (a ++ c :: b) [c] = some a.length := by
  induction a with
  | nil =>
    show goIndex (c :: b) [c] = some 0
    have : ([c] : GoStr).isPrefixOf (c :: b) = true := by
      simp [List.isPrefixOf]
    simp [goIndex, this]
  | cons x t ih =>
    rw [List.all_cons, Bool.and_eq_true] at ha
    have hx : ¬ (([c] : GoStr).isPrefixOf (x :: (t ++ c :: b)) = true) := by
      intro hcon
      rw [List.isPrefixOf_iff_prefix] at hcon
      obtain ⟨r, hr⟩ := hcon
      have : x = c := by
        have := congrArg (fun l => l.head?) hr
        simpa using this.symm
      simp [this] at ha
    show goIndex (x :: (t ++ c :: b)) [c] = some (t.length + 1)
    simp only [goIndex, hx, Bool.false_eq_true, if_false, ih ha.2]

theorem queryEscape_unreserved {s : GoStr} (h : s.all isUnreserved = true) :
    queryEscape s = s := by
  induction s with
  | nil => rfl
  | cons c t ih =>
    rw [List.all_cons, Bool.and_eq_true] at h
    rw [queryEscape, if_pos h.1, ih h.2]

theorem isUnreserved_ne {c : Char} (h : isUnreserved c = true) :
    ¬ (c = '+') ∧ ¬ (c = '%') ∧ ¬ (c = '&') ∧ ¬ (c = '=') ∧ ¬ (c = '?') ∧
      ¬ (c = '#') := by
  refine ⟨?_, ?_, ?_, ?_, ?_, ?_⟩ <;>
    (intro he; subst he; simp [isUnreserved] at h)

theorem queryUnescape_unreserved {s : GoStr} (h : s.all isUnreserved = true) :
    queryUnescape s = s := by
  induction s with
  | nil => rw [queryUnescape]
  | cons c t ih =>
    rw [List.all_cons, Bool.and_eq_true] at h
    obtain ⟨h1, h2, _⟩ := isUnreserved_ne h.1
    rw [queryUnescape, if_neg h1, if_neg h2, ih h.2]

theorem splitChar_no_sep {c : Char} : ∀ {s : GoStr},
    s.all (fun x => ¬(x = c)) = true → splitChar c s = [s] := by
  intro s
  induction s with
  | nil => intro _; rfl
  | cons x t ih =>
    intro h
    rw [List.all_cons, Bool.and_eq_true] at h
    have hx : ¬ (x = c) := by simpa using h.1
    rw [splitChar]
    rw [if_neg hx, ih h.2]

theorem parseQueryPairs_single (param loc : GoStr)
    (hp : param.all isUnreserved = true) (hpne : param ≠ [])
    (hl : loc.all isUnreserved = true) :
    parseQueryPairs (param ++ '=' :: loc) = [(param, loc)] := by
  have hne : param ++ '=' :: loc ≠ [] := by
    intro he
    exact absurd (List.append_eq_nil.mp he).2 (by simp)
  have hno : (param ++ '=' :: loc).all (fun x => ¬(x = '&')) = true := by
    rw [List.all_append, Bool.and_eq_true]
    constructor
    · exact all_of_all_imp hp (fun c hc => by
        simp [(isUnreserved_ne hc).2.2.1])
    · rw [List.all_cons, Bool.and_eq_true]
      refine ⟨by decide, ?_⟩
      exact all_of_all_imp hl (fun c hc => by
        simp [(isUnreserved_ne hc).2.2.1])
  have hgi : goIndex (param ++ '=' :: loc) [('=' : Char)] = some param.length :=
    goIndex_single param loc '='
      (all_of_all_imp hp (fun c hc => by simp [(isUnreserved_ne hc).2.2.2.1]))
  have hdrop : (param ++ '=' :: loc).drop (param.length + 1) = loc := by
    rw [← List.drop_drop, List.drop_left]
    rfl
  have hgs : (gs "=") = [('=' : Char)] := rfl
  unfold parseQueryPairs
  rw [if_neg hne, splitChar_no_sep hno]
  have hfil : ((fun kv => decide (kv ≠ [])) (param ++ '=' :: loc)) = true := by
    simp [hne]
  rw [List.filter_cons, if_pos hfil]
  simp only [List.filter_nil, List.map_cons, List.map_nil, hgs, hgi,
    List.take_left, hdrop, queryUnescape_unreserved hp,
    queryUnescape_unreserved hl]

theorem encodeValues_single (param loc : GoStr)
    (hp : param.all isUnreserved = true) (hl : loc.all isUnreserved = true) :
    encodeValues [(param, loc)] = param ++ '=' :: loc := by
  unfold encodeValues
  rw [List.mergeSort]
  simp only [List.map_cons, List.map_nil]
  rw [queryEscape_unreserved hp, queryEscape_unreserved hl]
  simp [List.intercalate]
  rfl

theorem knownLocales_mem {l : GoStr} (h : KnownLocales l = true) :
    l ∈ KnownLocalesList := by
  unfold KnownLocales at h
  simpa using h

theorem knownLocales_facts : ∀ l ∈ KnownLocalesList,
    lowerStr l = l ∧ l.all isUnreserved = true ∧ l ≠ [] := by
  decide

theorem trimPre_append (pre r : GoStr) : trimPre (pre ++ r) pre = r := by
  unfold trimPre
  rw [if_pos, List.drop_left]
  rw [List.isPrefixOf_iff_prefix]
  exact ⟨r, rfl⟩

theorem localeMatch_shape2 (a b : Char) (rest : GoStr)
    (ha : isLowerAl a = true) (hb : isLowerAl b = true)
    (hrest : startsSlash rest = true) :
    localeMatch ('/' :: a :: b :: rest) = some [a, b] := by
  obtain ⟨c, t, rfl⟩ : ∃ c t, rest = c :: t := by
    cases rest with
    | nil => simp [startsSlash] at hrest
    | cons c t => exact ⟨c, t, rfl⟩
  have hc : c = '/' := by simpa [startsSlash] using hrest
  subst hc
  have htr : tryRegion ('/' :: t) = none := by
    unfold tryRegion
    rfl
  simp [localeMatch, ha, hb, htr]

theorem localeMatch_shape5 (a b c d : Char) (rest : GoStr)
    (ha : isLowerAl a = true) (hb : isLowerAl b = true)
    (hc : isAl c = true) (hd2 : isAl d = true)
    (hrest : startsSlash rest = true) :
    localeMatch ('/' :: a :: b :: '-' :: c :: d :: rest) =
      some [a, b, '-', c, d] := by
  obtain ⟨e, t, rfl⟩ : ∃ e t, rest = e :: t := by
    cases rest with
    | nil => simp [startsSlash] at hrest
    | cons e t => exact ⟨e, t, rfl⟩
  have he : e = '/' := by simpa [startsSlash] using hrest
  subst he
  have h4 : regionTry (c :: d :: '/' :: t) 4 = none := by
    unfold regionTry
    cases t with
    | nil => simp [List.take]
    | cons u v => simp [List.take, (by decide : isAl '/' = false)]
  have h3 : regionTry (c :: d :: '/' :: t) 3 = none := by
    unfold regionTry
    simp [List.take, (by decide : isAl '/' = false)]
  have h2 : regionTry (c :: d :: '/' :: t) 2 = some [c, d] := by
    unfold regionTry
    simp [List.take, List.drop, hc, hd2, startsSlash]
  have htr : tryRegion ('-' :: c :: d :: '/' :: t) = some ['-', c, d] := by
    simp only [tryRegion, h4, h3, h2]
  simp [localeMatch, ha, hb, htr]

theorem localeMatch_known (loc canonical : GoStr)
    (hloc : KnownLocales loc = true) (hcan : startsSlash canonical = true) :
    localeMatch (('/' :: loc) ++ canonical) = some loc := by
  have hmem := knownLocales_mem hloc
  fin_cases hmem <;>
    first
    | exact localeMatch_shape2 _ _ canonical (by decide) (by decide) hcan
    | exact localeMatch_shape5 _ _ _ _ canonical (by decide) (by decide)
        (by decide) (by decide) hcan

theorem extractLocalePath_known (loc canonical : GoStr)
    (hloc : KnownLocales loc = true) (hcan : startsSlash canonical = true) :
    extractLocalePath (('/' :: loc) ++ canonical) = (loc, canonical) := by
  obtain ⟨hlow, _, _⟩ := knownLocales_facts loc (knownLocales_mem hloc)
  have hne : ¬ (canonical = []) := by
    intro he
    subst he
    simp [startsSlash] at hcan
  simp only [extractLocalePath, localeMatch_known loc canonical hloc hcan,
    hlow, hloc, if_true, trimPre_append, if_neg hne]

theorem pathCleanChar_qh {canonical : GoStr}
    (h : canonical.all pathCleanChar = true) :
    canonical.all (fun c => ¬(c = '?') ∧ ¬(c = '#')) = true := by
  refine all_of_all_imp h ?_
  intro c hc
  rw [pathCleanChar] at hc
  rw [decide_eq_true_eq] at hc
  rcases hc with hc | hc
  · obtain ⟨_, _, _, _, h5, h6⟩ := isUnreserved_ne hc
    simp [h5, h6]
  · subst hc
    decide

theorem unreserved_qh {l : GoStr} (h : l.all isUnreserved = true) :
    l.all (fun c => ¬(c = '?') ∧ ¬(c = '#')) = true := by
  refine all_of_all_imp h ?_
  intro c hc
  obtain ⟨_, _, _, _, h5, h6⟩ := isUnreserved_ne hc
  simp [h5, h6]

/-- C6 amended: for every known locale code, the
ExtractLocale/BuildLocaleURL round trip returns the locale and canonical
path unchanged, in path mode for canonical paths that start with a slash,
and in query mode for empty or slash-initial canonical paths, over pure
(unreserved-and-slash) canonical paths, clean hosts and unreserved non-empty
parameter names. -/
theorem locale_round_trip (host loc canonical param : GoStr)
    (prio : List GoStr)
    (hh : host.all hostClean = true)
    (hloc : KnownLocales loc = true)
    (hcanc : canonical.all pathCleanChar = true)
    (hparam : param.all isUnreserved = true) (hparamne : ¬ (param = [])) :
    (startsSlash canonical = true →
      ∃ u, parseSimpleURL (BuildLocaleURL (gs "https://" ++ host) loc
          canonical (some ⟨prio, []⟩)) = some u ∧
        ExtractLocale u (some ⟨prio, []⟩) = (loc, canonical)) ∧
    ((canonical = [] ∨ startsSlash canonical = true) →
      ∃ u, parseSimpleURL (BuildLocaleURL (gs "https://" ++ host) loc
          canonical (some ⟨prio, param⟩)) = some u ∧
        ExtractLocale u (some ⟨prio, param⟩) = (loc, canonical)) := by
  obtain ⟨hlow, hlocun, hlocne⟩ := knownLocales_facts loc (knownLocales_mem hloc)
  have hcqh := pathCleanChar_qh hcanc
  constructor
  · intro hcan
    have heq : BuildLocaleURL (gs "https://" ++ host) loc canonical
        (some ⟨prio, []⟩) =
        gs "https://" ++ (host ++ (('/' :: loc) ++ canonical)) := by
      simp [BuildLocaleURL, hlocne]
      rfl
    have hp0 : startsSlash (('/' :: loc) ++ canonical) = true := by
      rw [List.cons_append]
      rfl
    have hpc : (('/' :: loc) ++ canonical).all
        (fun c => ¬(c = '?') ∧ ¬(c = '#')) = true := by
      rw [List.cons_append, List.all_cons, Bool.and_eq_true]
      refine ⟨by decide, ?_⟩
      rw [List.all_append, Bool.and_eq_true]
      exact ⟨unreserved_qh hlocun, hcqh⟩
    refine ⟨⟨gs "https", host, ('/' :: loc) ++ canonical, []⟩, ?_, ?_⟩
    · rw [heq]
      exact parseSimpleURL_https host (('/' :: loc) ++ canonical) hh
        (Or.inr hp0) hpc
    · show ExtractLocale _ _ = _
      simp only [ExtractLocale, if_pos rfl]
      exact extractLocalePath_known loc canonical hloc hcan
  · intro hcan0
    have hrq : param ++ '=' :: loc ≠ [] := by
      intro he
      exact absurd (List.append_eq_nil.mp he).2 (by simp)
    have heq : BuildLocaleURL (gs "https://" ++ host) loc canonical
        (some ⟨prio, param⟩) =
        gs "https://" ++ (host ++ (canonical ++ ('?' :: (param ++ '=' :: loc))))
        := by
      have hparse : parseSimpleURL ((gs "https://" ++ host) ++ canonical)
          = some ⟨gs "https", host, canonical, []⟩ := by
        rw [List.append_assoc]
        exact parseSimpleURL_https host canonical hh hcan0 hcqh
      simp only [BuildLocaleURL, if_neg hlocne, if_neg hparamne, hparse]
      have hqp : parseQueryPairs ([] : GoStr) = [] := rfl
      rw [hqp]
      have hsp : setParam [] param loc = [(param, loc)] := rfl
      rw [hsp, encodeValues_single param loc hparam hlocun]
      simp only [urlToString, if_neg hrq]
      simp only [List.append_assoc]
      rfl
    refine ⟨⟨gs "https", host, canonical, param ++ '=' :: loc⟩, ?_, ?_⟩
    · rw [heq]
      refine parseSimpleURL_https_q host canonical (param ++ '=' :: loc) hh
        hcan0 hcqh ?_
      rw [List.all_append, Bool.and_eq_true]
      constructor
      · exact all_of_all_imp hparam (fun c hc => by
          simp [(isUnreserved_ne hc).2.2.2.2.2])
      · rw [List.all_cons, Bool.and_eq_true]
        refine ⟨by decide, ?_⟩
        exact all_of_all_imp hlocun (fun c hc => by
          simp [(isUnreserved_ne hc).2.2.2.2.2])
    · simp only [ExtractLocale, if_neg hparamne]
      rw [Prod.mk.injEq]
      refine ⟨?_, rfl⟩
      unfold queryGet
      rw [parseQueryPairs_single param loc hparam hparamne hlocun]
      simp [List.find?]

/-- C6 counterexample: with the empty canonical path in path mode, the
round trip fails: building locale en over the empty canonical yields a URL
whose path /en has no trailing slash after the locale segment, so the
locale regex does not match and ExtractLocale returns an empty locale with
canonical /en instead of (en, empty). -/
theorem locale_round_trip_counterexample :
    parseSimpleURL (BuildLocaleURL (gs "https://example.com") (gs "en") []
      (some ⟨[gs "en"], []⟩)) =
      some ⟨gs "https", gs "example.com", gs "/en", []⟩ ∧
    ExtractLocale ⟨gs "https", gs "example.com", gs "/en", []⟩
      (some ⟨[gs "en"], []⟩) = ([], gs "/en") ∧
    (([], gs "/en") : GoStr × GoStr) ≠ (gs "en", ([] : GoStr)) := by
  refine ⟨by decide, by decide, by decide⟩

/-- C6 witness: the round trip on locale ja and canonical /docs/api, in both
the path-based and the hl query-parameter configurations. -/
theorem locale_round_trip_witness :
    (∃ u, parseSimpleURL (BuildLocaleURL (gs "https://" ++ gs "example.com")
        (gs "ja") (gs "/docs/api") (some ⟨[gs "en", gs "ja"], []⟩)) = some u ∧
      ExtractLocale u (some ⟨[gs "en", gs "ja"], []⟩)
        = (gs "ja", gs "/docs/api")) ∧
    (∃ u, parseSimpleURL (BuildLocaleURL (gs "https://" ++ gs "example.com")
        (gs "ja") (gs "/docs/api") (some ⟨[gs "en", gs "ja"], gs "hl"⟩))
        = some u ∧
      ExtractLocale u (some ⟨[gs "en", gs "ja"], gs "hl"⟩)
        = (gs "ja", gs "/docs/api")) := by
  have h := locale_round_trip (gs "example.com") (gs "ja") (gs "/docs/api")
    (gs "hl") [gs "en", gs "ja"] (by decide) (by decide) (by decide)
    (by decide) (by decide)
  exact ⟨h.1 (by decide), h.2 (Or.inr (by decide))⟩

set_option maxHeartbeats 2000000 in
theorem err_none_all (env : Env) : ∀ fuel : Nat,
    (∀ lc domain maxDepth crawlDir u canonical fetchURL depth st,
      (localeBody env lc domain maxDepth crawlDir fuel u canonical fetchURL
        depth st).2 = none) ∧
    (∀ domain maxDepth crawlDir targetURL u depth st,
      (standardBody env domain maxDepth crawlDir fuel targetURL u depth
        st).2 = none) ∧
    (∀ lc domain maxDepth crawlDir originalURL canonical depth st,
      (crawlWithLocalePriority env lc domain maxDepth crawlDir fuel
        originalURL canonical depth st).2 = none) ∧
    (∀ cfg domain maxDepth crawlDir targetURL depth st,
      (crawl env cfg domain maxDepth crawlDir fuel targetURL depth st).2
        = none) ∧
    (∀ cfg domain maxDepth crawlDir links depth st,
      (crawlList env cfg domain maxDepth crawlDir fuel links depth st).2
        = none) := by
  intro fuel
  induction fuel using Nat.strong_induction_on with
  | _ fuel IH =>
    have hlb : ∀ lc domain maxDepth crawlDir u canonical fetchURL depth st,
        (localeBody env lc domain maxDepth crawlDir fuel u canonical fetchURL
          depth st).2 = none := by
      intro lc domain maxDepth crawlDir u canonical fetchURL depth st
      unfold localeBody
      dsimp only
      repeat' split
      all_goals try rfl
      all_goals exact (IH (fuel - 1) (by omega)).2.2.2.2 _ _ _ _ _ _ _
    have hsb : ∀ domain maxDepth crawlDir targetURL u depth st,
        (standardBody env domain maxDepth crawlDir fuel targetURL u depth
          st).2 = none := by
      intro domain maxDepth crawlDir targetURL u depth st
      unfold standardBody
      dsimp only
      repeat' split
      all_goals try rfl
      all_goals exact (IH (fuel - 1) (by omega)).2.2.2.2 _ _ _ _ _ _ _
    have hcwlp : ∀ lc domain maxDepth crawlDir originalURL canonical depth st,
        (crawlWithLocalePriority env lc domain maxDepth crawlDir fuel
          originalURL canonical depth st).2 = none := by
      intro lc domain maxDepth crawlDir originalURL canonical depth st
      unfold crawlWithLocalePriority
      dsimp only
      repeat' split
      all_goals try rfl
      all_goals apply hlb
    have hcrawl : ∀ cfg domain maxDepth crawlDir targetURL depth st,
        (crawl env cfg domain maxDepth crawlDir fuel targetURL depth st).2
          = none := by
      intro cfg domain maxDepth crawlDir targetURL depth st
      unfold crawl
      dsimp only
      repeat' split
      all_goals try rfl
      all_goals first
        | apply hcwlp
        | apply hsb
    have hlist : ∀ cfg domain maxDepth crawlDir links depth st,
        (crawlList env cfg domain maxDepth crawlDir fuel links depth st).2
          = none := by
      intro cfg domain maxDepth crawlDir links depth st
      induction links generalizing st with
      | nil =>
        unfold crawlList
        rfl
      | cons link rest ihl =>
        unfold crawlList
        apply ihl
    exact ⟨hlb, hsb, hcwlp, hcrawl, hlist⟩

/-- C7: the crawl, in both modes, absorbs every per-page condition (bad
URL, cross-domain link, non-HTML resource, non-200 status, network error,
body-read, mkdir or write failure, parse failure) and always returns a nil
error; the top-level Fetch returns a nil error exactly when the setup
succeeds: the (scheme-defaulted) start URL parses with an http or https
scheme and a non-empty host, and the crawl directory can be removed and
recreated. -/
theorem fetch_error_policy (env : Env) (cfg : Option LocaleConfig)
    (outputDir targetURL : GoStr) (maxDepth : Nat) :
    (∀ domain crawlDir fuel url depth st,
      (crawl env cfg domain maxDepth crawlDir fuel url depth st).2
        = none) ∧
    (∀ lc domain crawlDir fuel url canonical depth st,
      (crawlWithLocalePriority env lc domain maxDepth crawlDir fuel url
        canonical depth st).2 = none) ∧
    ((Fetch env cfg outputDir maxDepth targetURL).2 = none ↔
      (∃ u, env.parseURL
          (if ¬ ((gs "http://").isPrefixOf targetURL) ∧
              ¬ ((gs "https://").isPrefixOf targetURL)
           then gs "https://" ++ targetURL else targetURL) = some u ∧
        (u.scheme = gs "http" ∨ u.scheme = gs "https") ∧ ¬ (u.host = []) ∧
        env.removeOk (joinPath3 outputDir (gs "crawl") []) = true ∧
        env.mkdirAllOk (joinPath3 outputDir (gs "crawl") []) = true)) := by
  refine ⟨fun domain crawlDir fuel url depth st =>
      (err_none_all env fuel).2.2.2.1 _ _ _ _ _ _ _,
    fun lc domain crawlDir fuel url canonical depth st =>
      (err_none_all env fuel).2.2.1 _ _ _ _ _ _ _ _, ?_⟩
  unfold Fetch
  dsimp only
  cases hp : env.parseURL
      (if ¬ ((gs "http://").isPrefixOf targetURL) ∧
          ¬ ((gs "https://").isPrefixOf targetURL)
       then gs "https://" ++ targetURL else targetURL) with
  | none =>
    simp only [hp]
    constructor
    · intro hcon
      exact Option.noConfusion hcon
    · rintro ⟨u, hu, _⟩
      exact Option.noConfusion hu
  | some u =>
    simp only [hp]
    by_cases hs : ¬ (u.scheme = gs "http") ∧ ¬ (u.scheme = gs "https")
    · rw [if_pos hs]
      constructor
      · intro hcon
        exact Option.noConfusion hcon
      · rintro ⟨u2, hu2, hsch, _⟩
        cases hu2
        tauto
    · rw [if_neg hs]
      by_cases hh : u.host = []
      · rw [if_pos hh]
        constructor
        · intro hcon
          exact Option.noConfusion hcon
        · rintro ⟨u2, hu2, _, hho, _⟩
          cases hu2
          exact absurd hh hho
      · rw [if_neg hh]
        by_cases hrm : ¬ env.removeOk (joinPath3 outputDir (gs "crawl") [])
            = true
        · rw [if_pos hrm]
          constructor
          · intro hcon
            exact Option.noConfusion hcon
          · rintro ⟨u2, hu2, _, _, hrm2, _⟩
            cases hu2
            exact absurd hrm2 hrm
        · rw [if_neg hrm]
          by_cases hmk : ¬ env.mkdirAllOk (joinPath3 outputDir (gs "crawl") [])
              = true
          · rw [if_pos hmk]
            constructor
            · intro hcon
              exact Option.noConfusion hcon
            · rintro ⟨u2, hu2, _, _, _, hmk2⟩
              cases hu2
              exact absurd hmk2 hmk
          · rw [if_neg hmk]
            constructor
            · intro _
              refine ⟨u, rfl, ?_, hh, ?_, ?_⟩
              · by_cases h1 : u.scheme = gs "http"
                · exact Or.inl h1
                · right
                  by_cases h2 : u.scheme = gs "https"
                  · exact h2
                  · exact absurd ⟨h1, h2⟩ hs
              · exact Bool.of_not_eq_false (by simpa using hrm)
              · exact Bool.of_not_eq_false (by simpa using hmk)
            · intro _
              exact (err_none_all env (maxDepth + 1)).2.2.2.1 _ _ _ _ _ _ _

/-- C7 witness: a concrete environment in which every page fetch fails with
a network error still yields a nil error from Fetch. -/
theorem fetch_error_policy_witness :
    (Fetch
      { parseURL := fun _ => some ⟨gs "https", gs "example.com", gs "/", []⟩,
        robots := fun _ => true, newReqOk := fun _ => true,
        get := fun _ => .netErr, headStatus := fun _ => none,
        rangeStatus := fun _ => none, mkdirOk := fun _ => false,
        writeOk := fun _ => false, removeOk := fun _ => true,
        mkdirAllOk := fun _ => true }
      none (gs "out") 5 (gs "example.com")).2 = none := by
  have h := (fetch_error_policy
    { parseURL := fun _ => some ⟨gs "https", gs "example.com", gs "/", []⟩,
      robots := fun _ => true, newReqOk := fun _ => true,
      get := fun _ => .netErr, headStatus := fun _ => none,
      rangeStatus := fun _ => none, mkdirOk := fun _ => false,
      writeOk := fun _ => false, removeOk := fun _ => true,
      mkdirAllOk := fun _ => true }
    none (gs "out") (gs "example.com") 5).2.2
  exact h.mpr ⟨⟨gs "https", gs "example.com", gs "/", []⟩, rfl,
    Or.inr rfl, by decide, rfl, rfl⟩

theorem crawlInv_init : CrawlInv initCrawlState := by
  refine ⟨List.nodup_nil, ?_, List.nodup_nil, ?_⟩ <;>
    (intro p hp; cases hp)

theorem crawlInv_visited_insert {st : CrawlState} (x : GoStr)
    (h : CrawlInv st) : CrawlInv { st with visited := x :: st.visited } := by
  obtain ⟨h1, h2, h3, h4⟩ := h
  exact ⟨h1, fun p hp => List.mem_cons_of_mem _ (h2 p hp), h3, h4⟩

theorem crawlInv_visitedCanonical_insert {st : CrawlState} (x : GoStr)
    (h : CrawlInv st) :
    CrawlInv { st with visitedCanonical := x :: st.visitedCanonical } := by
  obtain ⟨h1, h2, h3, h4⟩ := h
  exact ⟨h1, h2, h3, fun p hp => List.mem_cons_of_mem _ (h4 p hp)⟩

theorem crawlInv_record {st : CrawlState} (x : GoStr) (d : Nat)
    (h : CrawlInv st) (hv : x ∈ st.visited)
    (hnf : x ∉ st.fetched.map Prod.fst) :
    CrawlInv { st with fetched := (x, d) :: st.fetched } := by
  obtain ⟨h1, h2, h3, h4⟩ := h
  refine ⟨?_, ?_, h3, h4⟩
  · rw [List.map_cons, List.nodup_cons]
    exact ⟨hnf, h1⟩
  · intro p hp
    rcases List.mem_cons.mp hp with he | he
    · subst he; exact hv
    · exact h2 p he

theorem crawlInv_recordCanonical {st : CrawlState} (x : GoStr) (d : Nat)
    (h : CrawlInv st) (hv : x ∈ st.visitedCanonical)
    (hnf : x ∉ st.fetchedCanonical.map Prod.fst) :
    CrawlInv { st with fetchedCanonical := (x, d) :: st.fetchedCanonical }
    := by
  obtain ⟨h1, h2, h3, h4⟩ := h
  refine ⟨h1, h2, ?_, ?_⟩
  · rw [List.map_cons, List.nodup_cons]
    exact ⟨hnf, h3⟩
  · intro p hp
    rcases List.mem_cons.mp hp with he | he
    · subst he; exact hv
    · exact h4 p he

theorem checkURLExists_state (env : Env) (url : GoStr) (st : CrawlState) :
    (checkURLExists env url st).1 = probeStatus env url ∧
    ∃ ps, (checkURLExists env url st).2 = { st with probed := ps } := by
  constructor
  · unfold checkURLExists probeStatus
    dsimp only
    repeat' split
    all_goals simp_all
  · unfold checkURLExists
    dsimp only
    repeat' split
    all_goals first
      | exact ⟨st.probed, rfl⟩
      | exact ⟨url :: st.probed, rfl⟩

theorem probeLoop_probed_only (env : Env) (lc : LocaleConfig)
    (baseURL canonical : GoStr) : ∀ (prio : List GoStr) (st : CrawlState),
    ∃ ps, (probeLoop env lc baseURL canonical prio st).2 =
      { st with probed := ps } := by
  intro prio
  induction prio with
  | nil => intro st; exact ⟨st.probed, rfl⟩
  | cons l rest ih =>
    intro st
    obtain ⟨h1, ps, h2⟩ := checkURLExists_state env
      (BuildLocaleURL baseURL l canonical (some lc)) st
    unfold probeLoop
    dsimp only
    split
    · exact ⟨ps, h2⟩
    · split
      · exact ⟨ps, h2⟩
      · obtain ⟨ps2, h3⟩ :=
          ih (checkURLExists env
            (BuildLocaleURL baseURL l canonical (some lc)) st).2
        rw [h3, h2]
        exact ⟨ps2, rfl⟩

set_option maxHeartbeats 2000000 in
theorem crawlInv_all (env : Env) : ∀ fuel : Nat,
    (∀ lc domain maxDepth crawlDir u canonical fetchURL depth st,
      CrawlInv st → canonical ∈ st.visitedCanonical →
      canonical ∉ st.fetchedCanonical.map Prod.fst →
      CrawlInv (localeBody env lc domain maxDepth crawlDir fuel u canonical
        fetchURL depth st).1) ∧
    (∀ domain maxDepth crawlDir targetURL u depth st,
      CrawlInv st → targetURL ∈ st.visited →
      targetURL ∉ st.fetched.map Prod.fst →
      CrawlInv (standardBody env domain maxDepth crawlDir fuel targetURL u
        depth st).1) ∧
    (∀ lc domain maxDepth crawlDir originalURL canonical depth st,
      CrawlInv st → canonical ∈ st.visitedCanonical →
      canonical ∉ st.fetchedCanonical.map Prod.fst →
      CrawlInv (crawlWithLocalePriority env lc domain maxDepth crawlDir fuel
        originalURL canonical depth st).1) ∧
    (∀ cfg domain maxDepth crawlDir targetURL depth st,
      CrawlInv st →
      CrawlInv (crawl env cfg domain maxDepth crawlDir fuel targetURL depth
        st).1) ∧
    (∀ cfg domain maxDepth crawlDir links depth st,
      CrawlInv st →
      CrawlInv (crawlList env cfg domain maxDepth crawlDir fuel links depth
        st).1) := by
  intro fuel
  induction fuel using Nat.strong_induction_on with
  | _ fuel IH =>
    have hlb : ∀ lc domain maxDepth crawlDir u canonical fetchURL depth st,
        CrawlInv st → canonical ∈ st.visitedCanonical →
        canonical ∉ st.fetchedCanonical.map Prod.fst →
        CrawlInv (localeBody env lc domain maxDepth crawlDir fuel u canonical
          fetchURL depth st).1 := by
      intro lc domain maxDepth crawlDir u canonical fetchURL depth st h hv hnf
      unfold localeBody
      dsimp only
      repeat' split
      all_goals first
        | exact h
        | exact crawlInv_recordCanonical _ _ h hv hnf
        | exact (IH (fuel - 1) (by omega)).2.2.2.2 _ _ _ _ _ _ _
            (crawlInv_recordCanonical _ _ h hv hnf)
    have hsb : ∀ domain maxDepth crawlDir targetURL u depth st,
        CrawlInv st → targetURL ∈ st.visited →
        targetURL ∉ st.fetched.map Prod.fst →
        CrawlInv (standardBody env domain maxDepth crawlDir fuel targetURL u
          depth st).1 := by
      intro domain maxDepth crawlDir targetURL u depth st h hv hnf
      unfold standardBody
      dsimp only
      repeat' split
      all_goals first
        | exact h
        | exact crawlInv_record _ _ h hv hnf
        | exact (IH (fuel - 1) (by omega)).2.2.2.2 _ _ _ _ _ _ _
            (crawlInv_record _ _ h hv hnf)
    have hcwlp : ∀ lc domain maxDepth crawlDir originalURL canonical depth st,
        CrawlInv st → canonical ∈ st.visitedCanonical →
        canonical ∉ st.fetchedCanonical.map Prod.fst →
        CrawlInv (crawlWithLocalePriority env lc domain maxDepth crawlDir
          fuel originalURL canonical depth st).1 := by
      intro lc domain maxDepth crawlDir originalURL canonical depth st h hv hnf
      unfold crawlWithLocalePriority
      dsimp only
      cases hp : env.parseURL originalURL with
      | none => exact h
      | some u =>
        dsimp only
        split
        · exact h
        · split
          · exact h
          · split
            · exact h
            · obtain ⟨psl, hpl⟩ := probeLoop_probed_only env lc
                (u.scheme ++ gs "://" ++ u.host) canonical
                (if lc.Priority = [] then DefaultLocalePriority
                 else lc.Priority) st
              split <;> rename_i st2 heq <;> rw [heq] at hpl <;>
                dsimp only at hpl
              · rw [hpl]
                exact h
              · rw [hpl]
                exact hlb _ _ _ _ _ _ _ _ _ h hv hnf
              · rw [hpl]
                obtain ⟨hq1, ps2, hq2⟩ := checkURLExists_state env originalURL
                  { st with probed := psl }
                split
                · rw [hq2]
                  exact hlb _ _ _ _ _ _ _ _ _ h hv hnf
                · rw [hq2]
                  exact h
    have hcrawl : ∀ cfg domain maxDepth crawlDir targetURL depth st,
        CrawlInv st →
        CrawlInv (crawl env cfg domain maxDepth crawlDir fuel targetURL depth
          st).1 := by
      intro cfg domain maxDepth crawlDir targetURL depth st h
      unfold crawl
      dsimp only
      split
      · exact h
      · split
        · exact h
        · split
          · exact h
          · cases cfg with
            | some lc =>
              dsimp only
              cases hp : env.parseURL targetURL with
              | none => exact h
              | some u =>
                dsimp only
                split
                · exact h
                · rename_i hnv
                  apply hcwlp
                  · exact crawlInv_visitedCanonical_insert _ h
                  · exact List.mem_cons_self ..
                  · intro hmem
                    rw [List.mem_map] at hmem
                    obtain ⟨p, hpmem, hpe⟩ := hmem
                    exact hnv (hpe ▸ h.2.2.2 p hpmem)
            | none =>
              dsimp only
              split
              · exact h
              · rename_i hnv
                cases hp2 : env.parseURL targetURL with
                | none => exact crawlInv_visited_insert _ h
                | some u =>
                  dsimp only
                  apply hsb
                  · exact crawlInv_visited_insert _ h
                  · exact List.mem_cons_self ..
                  · intro hmem
                    rw [List.mem_map] at hmem
                    obtain ⟨p, hpmem, hpe⟩ := hmem
                    exact hnv (hpe ▸ h.2.1 p hpmem)
    have hlist : ∀ cfg domain maxDepth crawlDir links depth st,
        CrawlInv st →
        CrawlInv (crawlList env cfg domain maxDepth crawlDir fuel links depth
          st).1 := by
      intro cfg domain maxDepth crawlDir links depth st h
      induction links generalizing st with
      | nil =>
        unfold crawlList
        exact h
      | cons link rest ihl =>
        unfold crawlList
        exact ihl _ (hcrawl _ _ _ _ _ _ _ h)
    exact ⟨hlb, hsb, hcwlp, hcrawl, hlist⟩

/-- C2: over any environment and start URL, a Fetch session issues at most
one page GET per exact URL in standard mode and at most one per canonical
path in locale mode, even on cyclic link graphs: the logs of issued page
fetches have no duplicate keys. -/
theorem fetch_at_most_once (env : Env) (cfg : Option LocaleConfig)
    (outputDir targetURL : GoStr) (maxDepth : Nat) :
    (((Fetch env cfg outputDir maxDepth targetURL).1.fetched.map
      Prod.fst).Nodup) ∧
    (((Fetch env cfg outputDir maxDepth targetURL).1.fetchedCanonical.map
      Prod.fst).Nodup) := by
  have hinv : CrawlInv (Fetch env cfg outputDir maxDepth targetURL).1 := by
    unfold Fetch
    dsimp only
    cases hp : env.parseURL
        (if ¬ ((gs "http://").isPrefixOf targetURL) ∧
            ¬ ((gs "https://").isPrefixOf targetURL)
         then gs "https://" ++ targetURL else targetURL) with
    | none => exact crawlInv_init
    | some u =>
      dsimp only
      split
      · exact crawlInv_init
      · split
        · exact crawlInv_init
        · split
          · exact crawlInv_init
          · split
            · exact crawlInv_init
            · exact (crawlInv_all env (maxDepth + 1)).2.2.2.1 _ _ _ _ _ _ _
                crawlInv_init
  exact ⟨hinv.1, hinv.2.2.1⟩

theorem depthExt_refl (m d : Nat) (st : CrawlState) : DepthExt m d st st :=
  ⟨fun _ hp => Or.inl hp, fun _ hp => Or.inl hp⟩

theorem depthExt_trans {m d : Nat} {s1 s2 s3 : CrawlState}
    (h1 : DepthExt m d s1 s2) (h2 : DepthExt m d s2 s3) :
    DepthExt m d s1 s3 := by
  constructor
  · intro p hp
    rcases h2.1 p hp with hh | hh
    · exact h1.1 p hh
    · exact Or.inr hh
  · intro p hp
    rcases h2.2 p hp with hh | hh
    · exact h1.2 p hh
    · exact Or.inr hh

theorem depthExt_weaken {m d : Nat} {s1 s2 : CrawlState}
    (h : DepthExt m (d + 1) s1 s2) : DepthExt m d s1 s2 := by
  constructor
  · intro p hp
    rcases h.1 p hp with hh | hh
    · exact Or.inl hh
    · exact Or.inr ⟨by omega, hh.2⟩
  · intro p hp
    rcases h.2 p hp with hh | hh
    · exact Or.inl hh
    · exact Or.inr ⟨by omega, hh.2⟩

theorem depthExt_record {m d : Nat} (st : CrawlState) (x : GoStr)
    (h : d ≤ m) :
    DepthExt m d st { st with fetched := (x, d) :: st.fetched } := by
  constructor
  · intro p hp
    rcases List.mem_cons.mp hp with he | he
    · subst he
      exact Or.inr ⟨le_refl d, h⟩
    · exact Or.inl he
  · intro p hp
    exact Or.inl hp

theorem depthExt_recordCanonical {m d : Nat} (st : CrawlState) (x : GoStr)
    (h : d ≤ m) :
    DepthExt m d st
      { st with fetchedCanonical := (x, d) :: st.fetchedCanonical } := by
  constructor
  · intro p hp
    exact Or.inl hp
  · intro p hp
    rcases List.mem_cons.mp hp with he | he
    · subst he
      exact Or.inr ⟨le_refl d, h⟩
    · exact Or.inl he

set_option maxHeartbeats 2000000 in
theorem depth_bound_all (env : Env) : ∀ fuel,
    (∀ lc domain maxDepth crawlDir u canonical fetchURL depth st,
      depth ≤ maxDepth →
      DepthExt maxDepth depth st (localeBody env lc domain maxDepth crawlDir
        fuel u canonical fetchURL depth st).1) ∧
    (∀ domain maxDepth crawlDir targetURL u depth st, depth ≤ maxDepth →
      DepthExt maxDepth depth st (standardBody env domain maxDepth crawlDir
        fuel targetURL u depth st).1) ∧
    (∀ lc domain maxDepth crawlDir originalURL canonical depth st,
      depth ≤ maxDepth →
      DepthExt maxDepth depth st (crawlWithLocalePriority env lc domain
        maxDepth crawlDir fuel originalURL canonical depth st).1) ∧
    (∀ cfg domain maxDepth crawlDir targetURL depth st,
      DepthExt maxDepth depth st (crawl env cfg domain maxDepth crawlDir
        fuel targetURL depth st).1) ∧
    (∀ cfg domain maxDepth crawlDir links depth st,
      DepthExt maxDepth depth st (crawlList env cfg domain maxDepth crawlDir
        fuel links depth st).1) := by
  intro fuel
  induction fuel using Nat.strong_induction_on with
  | _ fuel IH =>
    have hlb : ∀ lc domain maxDepth crawlDir u canonical fetchURL depth st,
        depth ≤ maxDepth →
        DepthExt maxDepth depth st (localeBody env lc domain maxDepth
          crawlDir fuel u canonical fetchURL depth st).1 := by
      intro lc domain maxDepth crawlDir u canonical fetchURL depth st h
      unfold localeBody
      dsimp only
      repeat' split
      all_goals first
        | exact depthExt_refl _ _ _
        | exact depthExt_recordCanonical _ _ h
        | exact depthExt_trans (depthExt_recordCanonical _ _ h)
            (depthExt_weaken ((IH (fuel - 1) (by omega)).2.2.2.2 _ _ _ _ _ _
              _))
    have hsb : ∀ domain maxDepth crawlDir targetURL u depth st,
        depth ≤ maxDepth →
        DepthExt maxDepth depth st (standardBody env domain maxDepth
          crawlDir fuel targetURL u depth st).1 := by
      intro domain maxDepth crawlDir targetURL u depth st h
      unfold standardBody
      dsimp only
      repeat' split
      all_goals first
        | exact depthExt_refl _ _ _
        | exact depthExt_record _ _ h
        | exact depthExt_trans (depthExt_record _ _ h)
            (depthExt_weaken ((IH (fuel - 1) (by omega)).2.2.2.2 _ _ _ _ _ _
              _))
    have hcwlp : ∀ lc domain maxDepth crawlDir originalURL canonical depth st,
        depth ≤ maxDepth →
        DepthExt maxDepth depth st (crawlWithLocalePriority env lc domain
          maxDepth crawlDir fuel originalURL canonical depth st).1 := by
      intro lc domain maxDepth crawlDir originalURL canonical depth st h
      unfold crawlWithLocalePriority
      dsimp only
      cases hp : env.parseURL originalURL with
      | none => exact depthExt_refl _ _ _
      | some u =>
        dsimp only
        split
        · exact depthExt_refl _ _ _
        · split
          · exact depthExt_refl _ _ _
          · split
            · exact depthExt_refl _ _ _
            · obtain ⟨psl, hpl⟩ := probeLoop_probed_only env lc
                (u.scheme ++ gs "://" ++ u.host) canonical
                (if lc.Priority = [] then DefaultLocalePriority
                 else lc.Priority) st
              split <;> rename_i st2 heq <;> rw [heq] at hpl <;>
                dsimp only at hpl
              · rw [hpl]
                exact depthExt_refl _ _ _
              · rw [hpl]
                exact hlb _ _ _ _ _ _ _ _ _ h
              · rw [hpl]
                obtain ⟨hq1, ps2, hq2⟩ := checkURLExists_state env originalURL
                  { st with probed := psl }
                split
                · rw [hq2]
                  exact hlb _ _ _ _ _ _ _ _ _ h
                · rw [hq2]
                  exact depthExt_refl _ _ _
    have hcrawl : ∀ cfg domain maxDepth crawlDir targetURL depth st,
        DepthExt maxDepth depth st (crawl env cfg domain maxDepth crawlDir
          fuel targetURL depth st).1 := by
      intro cfg domain maxDepth crawlDir targetURL depth st
      unfold crawl
      dsimp only
      split
      · exact depthExt_refl _ _ _
      · split
        · exact depthExt_refl _ _ _
        · rename_i hgt
          have hdm : depth ≤ maxDepth := by omega
          split
          · exact depthExt_refl _ _ _
          · cases cfg with
            | some lc =>
              dsimp only
              cases hp : env.parseURL targetURL with
              | none => exact depthExt_refl _ _ _
              | some u =>
                dsimp only
                split
                · exact depthExt_refl _ _ _
                · exact hcwlp _ _ _ _ _ _ _ _ hdm
            | none =>
              dsimp only
              split
              · exact depthExt_refl _ _ _
              · cases hp2 : env.parseURL targetURL with
                | none => exact depthExt_refl _ _ _
                | some u =>
                  dsimp only
                  exact hsb _ _ _ _ _ _ _ hdm
    have hlist : ∀ cfg domain maxDepth crawlDir links depth st,
        DepthExt maxDepth depth st (crawlList env cfg domain maxDepth
          crawlDir fuel links depth st).1 := by
      intro cfg domain maxDepth crawlDir links depth st
      induction links generalizing st with
      | nil =>
        unfold crawlList
        exact depthExt_refl _ _ _
      | cons link rest ihl =>
        unfold crawlList
        exact depthExt_trans (hcrawl _ _ _ _ _ _ _) (ihl _)
    exact ⟨hlb, hsb, hcwlp, hcrawl, hlist⟩

/-- C3: the depth discipline of the crawl: a call at depth > maxDepth stops
at once with the state unchanged and fetches nothing; every page GET a
crawl step adds to either log was issued at a depth between the call depth
and maxDepth (depth only grows along a traversal path, each recursive call
passing depth + 1); and a whole Fetch session never fetches any page at
depth maxDepth + 1 or beyond. -/
theorem crawl_depth_policy (env : Env) (cfg : Option LocaleConfig)
    (domain : GoStr) (maxDepth : Nat) (crawlDir : GoStr) (fuel : Nat)
    (targetURL : GoStr) (depth : Nat) (st : CrawlState) :
    (depth > maxDepth →
      crawl env cfg domain maxDepth crawlDir fuel targetURL depth st
        = (st, none)) ∧
    (∀ p ∈ (crawl env cfg domain maxDepth crawlDir fuel targetURL depth
        st).1.fetched,
      p ∈ st.fetched ∨ (depth ≤ p.2 ∧ p.2 ≤ maxDepth)) ∧
    (∀ p ∈ (crawl env cfg domain maxDepth crawlDir fuel targetURL depth
        st).1.fetchedCanonical,
      p ∈ st.fetchedCanonical ∨ (depth ≤ p.2 ∧ p.2 ≤ maxDepth)) ∧
    (∀ outputDir startURL p,
      p ∈ (Fetch env cfg outputDir maxDepth startURL).1.fetched ∨
      p ∈ (Fetch env cfg outputDir maxDepth startURL).1.fetchedCanonical →
      p.2 ≤ maxDepth) := by
  refine ⟨?_, ((depth_bound_all env fuel).2.2.2.1 _ _ _ _ _ _ _).1,
    ((depth_bound_all env fuel).2.2.2.1 _ _ _ _ _ _ _).2, ?_⟩
  · intro hgt
    unfold crawl
    split
    all_goals rfl
  · intro outputDir startURL p hp
    have hfe : DepthExt maxDepth 0 initCrawlState
        (Fetch env cfg outputDir maxDepth startURL).1 := by
      unfold Fetch
      dsimp only
      cases hpu : env.parseURL
          (if ¬ ((gs "http://").isPrefixOf startURL) ∧
              ¬ ((gs "https://").isPrefixOf startURL)
           then gs "https://" ++ startURL else startURL) with
      | none => exact depthExt_refl _ _ _
      | some u =>
        dsimp only
        split
        · exact depthExt_refl _ _ _
        · split
          · exact depthExt_refl _ _ _
          · split
            · exact depthExt_refl _ _ _
            · split
              · exact depthExt_refl _ _ _
              · exact (depth_bound_all env (maxDepth + 1)).2.2.2.1 _ _ _ _ _
                  _ _
    rcases hp with hh | hh
    · rcases hfe.1 p hh with hc | hc
      · cases hc
      · exact hc.2
    · rcases hfe.2 p hh with hc | hc
      · cases hc
      · exact hc.2

/-- C3 witness: with the all-denying robots environment, a call at depth 2
with maxDepth 1 returns the start state unchanged, and the page GET logged
at depth 1 in a concrete session state is accounted for by the bound. -/
theorem crawl_depth_policy_witness :
    crawl envRobotsOff none (gs "d") 1 (gs "out") 5 (gs "u") 2 initCrawlState
      = (initCrawlState, none) ∧
    ((gs "u", 1) ∈ stW.fetched ∨ (0 ≤ 1 ∧ 1 ≤ 1)) := by
  constructor
  · exact (crawl_depth_policy envRobotsOff none (gs "d") 1 (gs "out") 5
      (gs "u") 2 initCrawlState).1 (by decide)
  · refine (crawl_depth_policy envRobotsOff none (gs "d") 1 (gs "out") 5
      (gs "u") 0 stW).2.1 (gs "u", 1) ?_
    have hcr : crawl envRobotsOff none (gs "d") 1 (gs "out") 5 (gs "u") 0 stW
        = (stW, none) := by
      unfold crawl
      simp [envRobotsOff]
    rw [hcr]
    decide

theorem probeLoop_abandons (env : Env) (lc : LocaleConfig)
    (baseURL canonical : GoStr) : ∀ (pre : List GoStr) (loc2 : GoStr)
    (post : List GoStr) (st : CrawlState),
    (∀ l ∈ pre, probeCont env lc baseURL canonical l) →
    probeAbandon env lc baseURL canonical loc2 →
    (probeLoop env lc baseURL canonical (pre ++ loc2 :: post) st).1
      = .abandoned := by
  intro pre
  induction pre with
  | nil =>
    intro loc2 post st hpre hab
    obtain ⟨hq1, ps, hq2⟩ := checkURLExists_state env
      (BuildLocaleURL baseURL loc2 canonical (some lc)) st
    rw [List.nil_append]
    unfold probeLoop
    dsimp only
    rw [hq1, if_neg (by simp [hab.1]), if_pos ⟨hab.2.1, hab.2.2⟩]
  | cons l1 rest ih =>
    intro loc2 post st hpre hab
    obtain ⟨hq1, ps, hq2⟩ := checkURLExists_state env
      (BuildLocaleURL baseURL l1 canonical (some lc)) st
    have hc := hpre l1 (List.mem_cons_self ..)
    rw [List.cons_append]
    unfold probeLoop
    dsimp only
    rw [hq1, if_neg (by simp [hc.1]), if_neg hc.2]
    exact ih loc2 post _ (fun l hl => hpre l (List.mem_cons_of_mem _ hl)) hab

theorem probeLoop_exhausts (env : Env) (lc : LocaleConfig)
    (baseURL canonical : GoStr) : ∀ (prio : List GoStr) (st : CrawlState),
    (∀ l ∈ prio, probeCont env lc baseURL canonical l) →
    (probeLoop env lc baseURL canonical prio st).1 = .exhausted := by
  intro prio
  induction prio with
  | nil => intro st _; rfl
  | cons l1 rest ih =>
    intro st hall
    obtain ⟨hq1, ps, hq2⟩ := checkURLExists_state env
      (BuildLocaleURL baseURL l1 canonical (some lc)) st
    have hc := hall l1 (List.mem_cons_self ..)
    unfold probeLoop
    dsimp only
    rw [hq1, if_neg (by simp [hc.1]), if_neg hc.2]
    exact ih _ (fun l hl => hall l (List.mem_cons_of_mem _ hl))

theorem checkURLExists_probed (env : Env) (url : GoStr) (st : CrawlState) :
    (∀ x ∈ st.probed, x ∈ (checkURLExists env url st).2.probed) ∧
    (env.newReqOk url = true → url ∈ (checkURLExists env url st).2.probed)
    := by
  constructor
  · intro x hx
    unfold checkURLExists
    dsimp only
    repeat' split
    all_goals first
      | exact hx
      | exact List.mem_cons_of_mem _ hx
  · intro hok
    unfold checkURLExists
    dsimp only
    repeat' split
    all_goals first
      | exact absurd hok (by assumption)
      | exact List.mem_cons_self ..

theorem probeLoop_probed (env : Env) (lc : LocaleConfig)
    (baseURL canonical : GoStr) : ∀ (prio : List GoStr) (st : CrawlState)
    (x : GoStr), x ∈ st.probed →
    x ∈ (probeLoop env lc baseURL canonical prio st).2.probed := by
  intro prio
  induction prio with
  | nil => intro st x hx; exact hx
  | cons l1 rest ih =>
    intro st x hx
    unfold probeLoop
    dsimp only
    split
    · exact (checkURLExists_probed env _ st).1 x hx
    · split
      · exact (checkURLExists_probed env _ st).1 x hx
      · exact ih _ x ((checkURLExists_probed env _ st).1 x hx)

set_option maxHeartbeats 2000000 in
theorem probed_mono_all (env : Env) : ∀ fuel,
    (∀ lc domain maxDepth crawlDir u canonical fetchURL depth st,
      ∀ x ∈ st.probed, x ∈ (localeBody env lc domain maxDepth crawlDir
        fuel u canonical fetchURL depth st).1.probed) ∧
    (∀ domain maxDepth crawlDir targetURL u depth st,
      ∀ x ∈ st.probed, x ∈ (standardBody env domain maxDepth crawlDir
        fuel targetURL u depth st).1.probed) ∧
    (∀ lc domain maxDepth crawlDir originalURL canonical depth st,
      ∀ x ∈ st.probed, x ∈ (crawlWithLocalePriority env lc domain maxDepth
        crawlDir fuel originalURL canonical depth st).1.probed) ∧
    (∀ cfg domain maxDepth crawlDir targetURL depth st,
      ∀ x ∈ st.probed, x ∈ (crawl env cfg domain maxDepth crawlDir fuel
        targetURL depth st).1.probed) ∧
    (∀ cfg domain maxDepth crawlDir links depth st,
      ∀ x ∈ st.probed, x ∈ (crawlList env cfg domain maxDepth crawlDir fuel
        links depth st).1.probed) := by
  intro fuel
  induction fuel using Nat.strong_induction_on with
  | _ fuel IH =>
    have hlb : ∀ lc domain maxDepth crawlDir u canonical fetchURL depth st,
        ∀ x ∈ st.probed, x ∈ (localeBody env lc domain maxDepth crawlDir
          fuel u canonical fetchURL depth st).1.probed := by
      intro lc domain maxDepth crawlDir u canonical fetchURL depth st x hx
      unfold localeBody
      dsimp only
      repeat' split
      all_goals first
        | exact hx
        | exact (IH (fuel - 1) (by omega)).2.2.2.2 _ _ _ _ _ _ _ x hx
    have hsb : ∀ domain maxDepth crawlDir targetURL u depth st,
        ∀ x ∈ st.probed, x ∈ (standardBody env domain maxDepth crawlDir
          fuel targetURL u depth st).1.probed := by
      intro domain maxDepth crawlDir targetURL u depth st x hx
      unfold standardBody
      dsimp only
      repeat' split
      all_goals first
        | exact hx
        | exact (IH (fuel - 1) (by omega)).2.2.2.2 _ _ _ _ _ _ _ x hx
    have hcwlp : ∀ lc domain maxDepth crawlDir originalURL canonical depth st,
        ∀ x ∈ st.probed, x ∈ (crawlWithLocalePriority env lc domain maxDepth
          crawlDir fuel originalURL canonical depth st).1.probed := by
      intro lc domain maxDepth crawlDir originalURL canonical depth st x hx
      unfold crawlWithLocalePriority
      dsimp only
      cases hp : env.parseURL originalURL with
      | none => exact hx
      | some u =>
        dsimp only
        split
        · exact hx
        · split
          · exact hx
          · split
            · exact hx
            · have hx2 := probeLoop_probed env lc
                (u.scheme ++ gs "://" ++ u.host) canonical
                (if lc.Priority = [] then DefaultLocalePriority
                 else lc.Priority) st x hx
              split <;> rename_i st2 heq <;> rw [heq] at hx2 <;>
                dsimp only at hx2
              · exact hx2
              · exact hlb _ _ _ _ _ _ _ _ _ x hx2
              · split
                · exact hlb _ _ _ _ _ _ _ _ _ x
                    ((checkURLExists_probed env originalURL st2).1 x hx2)
                · exact (checkURLExists_probed env originalURL st2).1 x hx2
    have hcrawl : ∀ cfg domain maxDepth crawlDir targetURL depth st,
        ∀ x ∈ st.probed, x ∈ (crawl env cfg domain maxDepth crawlDir fuel
          targetURL depth st).1.probed := by
      intro cfg domain maxDepth crawlDir targetURL depth st x hx
      unfold crawl
      dsimp only
      split
      · exact hx
      · split
        · exact hx
        · split
          · exact hx
          · cases cfg with
            | some lc =>
              dsimp only
              cases hp : env.parseURL targetURL with
              | none => exact hx
              | some u =>
                dsimp only
                split
                · exact hx
                · exact hcwlp _ _ _ _ _ _ _ _ x hx
            | none =>
              dsimp only
              split
              · exact hx
              · cases hp2 : env.parseURL targetURL with
                | none => exact hx
                | some u =>
                  dsimp only
                  exact hsb _ _ _ _ _ _ _ x hx
    have hlist : ∀ cfg domain maxDepth crawlDir links depth st,
        ∀ x ∈ st.probed, x ∈ (crawlList env cfg domain maxDepth crawlDir
          fuel links depth st).1.probed := by
      intro cfg domain maxDepth crawlDir links depth st x hx
      induction links generalizing st with
      | nil =>
        unfold crawlList
        exact hx
      | cons link rest ihl =>
        unfold crawlList
        exact ihl _ (hcrawl _ _ _ _ _ _ _ x hx)
    exact ⟨hlb, hsb, hcwlp, hcrawl, hlist⟩

theorem cwlp_eq_probe (env : Env) (lc : LocaleConfig)
    (domain : GoStr) (maxDepth : Nat) (crawlDir : GoStr) (fuel : Nat)
    (originalURL canonical : GoStr) (depth : Nat) (st : CrawlState)
    (u : URLModel)
    (hp : env.parseURL originalURL = some u) (hdom : u.host = domain)
    (hnh : isNonHTMLResource originalURL = false)
    (hrob : env.robots originalURL = true) :
    crawlWithLocalePriority env lc domain maxDepth crawlDir fuel originalURL
      canonical depth st =
    match probeLoop env lc (u.scheme ++ gs "://" ++ u.host) canonical
        (if lc.Priority = [] then DefaultLocalePriority else lc.Priority)
        st with
    | (.abandoned, st2) => (st2, none)
    | (.found fetchURL, st2) =>
      localeBody env lc domain maxDepth crawlDir fuel u canonical fetchURL
        depth st2
    | (.exhausted, st2) =>
      if (checkURLExists env originalURL st2).1.1 then
        localeBody env lc domain maxDepth crawlDir fuel u canonical
          originalURL depth (checkURLExists env originalURL st2).2
      else ((checkURLExists env originalURL st2).2, none) := by
  unfold crawlWithLocalePriority
  rw [hp]
  dsimp only
  rw [if_neg (by simp [hdom]), if_neg (by simp [hnh]),
    if_neg (by simp [hrob])]

/-- C8: in the locale-aware fetch path, once every earlier locale candidate
has fallen through, a probe of a candidate answering 403, 429 or 5xx makes
crawlWithLocalePriority abandon the whole canonical path: it returns at
once with only the probe log changed, fetching nothing, regardless of the
remaining locales; and when every configured locale candidate falls
through (in particular when all probes report not found), the original
literal URL itself is probed before the canonical path is given up. -/
theorem locale_probe_policy (env : Env) (lc : LocaleConfig)
    (domain : GoStr) (maxDepth : Nat) (crawlDir : GoStr) (fuel : Nat)
    (originalURL canonical : GoStr) (depth : Nat) (st : CrawlState)
    (u : URLModel) (pre : List GoStr) (loc2 : GoStr) (post : List GoStr)
    (hp : env.parseURL originalURL = some u) (hdom : u.host = domain)
    (hnh : isNonHTMLResource originalURL = false)
    (hrob : env.robots originalURL = true)
    (hprio : (if lc.Priority = [] then DefaultLocalePriority
      else lc.Priority) = pre ++ loc2 :: post) :
    ((∀ l ∈ pre, probeCont env lc (u.scheme ++ gs "://" ++ u.host)
        canonical l) →
     probeAbandon env lc (u.scheme ++ gs "://" ++ u.host) canonical loc2 →
     ∃ ps, crawlWithLocalePriority env lc domain maxDepth crawlDir fuel
       originalURL canonical depth st = ({ st with probed := ps }, none)) ∧
    ((∀ l ∈ pre ++ loc2 :: post,
        probeCont env lc (u.scheme ++ gs "://" ++ u.host) canonical l) →
     env.newReqOk originalURL = true →
     originalURL ∈ (crawlWithLocalePriority env lc domain maxDepth crawlDir
       fuel originalURL canonical depth st).1.probed) := by
  constructor
  · intro hpre hab
    obtain ⟨ps, hps⟩ := probeLoop_probed_only env lc
      (u.scheme ++ gs "://" ++ u.host) canonical (pre ++ loc2 :: post) st
    refine ⟨ps, ?_⟩
    rw [cwlp_eq_probe env lc domain maxDepth crawlDir fuel originalURL
      canonical depth st u hp hdom hnh hrob, hprio]
    have h1 : probeLoop env lc (u.scheme ++ gs "://" ++ u.host) canonical
        (pre ++ loc2 :: post) st
        = (.abandoned, { st with probed := ps }) := by
      refine Prod.ext ?_ hps
      exact probeLoop_abandons env lc _ canonical pre loc2 post st hpre hab
    rw [h1]
  · intro hall hok
    rw [cwlp_eq_probe env lc domain maxDepth crawlDir fuel originalURL
      canonical depth st u hp hdom hnh hrob, hprio]
    have h1 : probeLoop env lc (u.scheme ++ gs "://" ++ u.host) canonical
        (pre ++ loc2 :: post) st
        = (.exhausted, (probeLoop env lc (u.scheme ++ gs "://" ++ u.host)
            canonical (pre ++ loc2 :: post) st).2) := by
      refine Prod.ext ?_ rfl
      exact probeLoop_exhausts env lc _ canonical (pre ++ loc2 :: post) st
        hall
    rw [h1]
    dsimp only
    split
    · exact (probed_mono_all env fuel).1 _ _ _ _ _ _ _ _ _ originalURL
        ((checkURLExists_probed env originalURL _).2 hok)
    · exact (checkURLExists_probed env originalURL _).2 hok

/-- C8 witness: with the 403-answering environment the canonical path /page
is abandoned with only the probe log changed, and with the 404-answering
environment the original literal URL is probed. -/
theorem locale_probe_policy_witness :
    (∃ ps, crawlWithLocalePriority envProbeA lcW (gs "example.com") 1
      (gs "out") 2 (gs "https://example.com/page") (gs "/page") 0
      initCrawlState = ({ initCrawlState with probed := ps }, none)) ∧
    gs "https://example.com/page" ∈ (crawlWithLocalePriority envProbeB lcW
      (gs "example.com") 1 (gs "out") 2 (gs "https://example.com/page")
      (gs "/page") 0 initCrawlState).1.probed := by
  constructor
  · exact (locale_probe_policy envProbeA lcW (gs "example.com") 1 (gs "out")
      2 (gs "https://example.com/page") (gs "/page") 0 initCrawlState
      ⟨gs "https", gs "example.com", gs "/page", []⟩ [] (gs "en") []
      rfl rfl (by decide) rfl (by decide)).1
      (fun l hl => nomatch hl) (by unfold probeAbandon; decide)
  · exact (locale_probe_policy envProbeB lcW (gs "example.com") 1 (gs "out")
      2 (gs "https://example.com/page") (gs "/page") 0 initCrawlState
      ⟨gs "https", gs "example.com", gs "/page", []⟩ [] (gs "en") []
      rfl rfl (by decide) rfl (by decide)).2
      (by
        intro l hl
        simp only [List.nil_append, List.mem_singleton] at hl
        subst hl
        unfold probeCont
        decide)
      rfl

theorem intercalate_single (a : GoStr) : (gs "/").intercalate [a] = a := by
  simp [List.intercalate, List.intersperse]

theorem intercalate_cons_ne (a : GoStr) (l : List GoStr) (h : l ≠ []) :
    (gs "/").intercalate (a :: l) = a ++ gs "/" ++ (gs "/").intercalate l := by
  cases l with
  | nil => cases h rfl
  | cons b t => simp [List.intercalate, List.intersperse]

theorem intercalate_append2 : ∀ (A : List GoStr), A ≠ [] →
    ∀ (B : List GoStr), B ≠ [] →
    (gs "/").intercalate (A ++ B)
      = (gs "/").intercalate A ++ gs "/" ++ (gs "/").intercalate B := by
  intro A
  induction A with
  | nil => intro h _ _; cases h rfl
  | cons a t ih =>
    intro _ B hB
    rw [List.cons_append]
    by_cases ht : t = []
    · subst ht
      rw [List.nil_append, intercalate_cons_ne a B hB, intercalate_single]
    · rw [intercalate_cons_ne a (t ++ B) (by simp [List.append_eq_nil, ht]),
        ih ht B hB, intercalate_cons_ne a t ht]
      simp [List.append_assoc]

theorem intercalate_splitChar : ∀ (s : GoStr),
    (gs "/").intercalate (splitChar '/' s) = s := by
  intro s
  induction s with
  | nil => simp [splitChar, List.intercalate, List.intersperse]
  | cons x xs ih =>
    by_cases hx : x = '/'
    · subst hx
      rw [splitChar, if_pos rfl,
        intercalate_cons_ne _ _ (splitChar_ne_nil _ _), ih]
      rfl
    · obtain ⟨hd, tl, he, he2⟩ := splitChar_cons_ne '/' x xs hx
      rw [he]
      cases tl with
      | nil =>
        rw [intercalate_single]
        rw [he2] at ih
        rw [intercalate_single] at ih
        rw [ih]
      | cons t1 t2 =>
        rw [intercalate_cons_ne _ _ (by simp)]
        rw [he2] at ih
        rw [intercalate_cons_ne _ _ (by simp)] at ih
        rw [List.cons_append, List.cons_append, ih]

theorem splitChar_append_slash (b : GoStr) : ∀ a : GoStr,
    splitChar '/' (a ++ '/' :: b) = splitChar '/' a ++ splitChar '/' b := by
  intro a
  induction a with
  | nil => rfl
  | cons x xs ih =>
    by_cases hx : x = '/'
    · subst hx
      show splitChar '/' ('/' :: (xs ++ '/' :: b)) = _
      rw [splitChar, if_pos rfl, ih, splitChar, if_pos rfl]
      rfl
    · show splitChar '/' (x :: (xs ++ '/' :: b)) = _
      rw [splitChar, if_neg hx, ih]
      cases hsp : splitChar '/' xs with
      | nil => exact absurd hsp (splitChar_ne_nil _ _)
      | cons h t =>
        rw [splitChar, if_neg hx, hsp]
        rfl

theorem cleanStack_no_dotdot (rooted : Bool) : ∀ (segs : List GoStr)
    (st : List GoStr), (∀ s ∈ segs, ¬(s = gs "..")) →
    cleanStack rooted st segs
      = st.reverse ++ segs.filter (fun s => ¬(s = [] ∨ s = gs ".")) := by
  intro segs
  induction segs with
  | nil => intro st _; simp [cleanStack]
  | cons seg rest ih =>
    intro st h
    have hrest := fun s hs => h s (List.mem_cons_of_mem _ hs)
    by_cases h1 : seg = [] ∨ seg = gs "."
    · have hf : List.filter (fun s => ¬(s = [] ∨ s = gs ".")) (seg :: rest)
          = List.filter (fun s => ¬(s = [] ∨ s = gs ".")) rest := by
        rcases h1 with h1 | h1 <;> subst h1 <;> simp
      rw [hf]
      unfold cleanStack
      rw [if_pos h1]
      exact ih st hrest
    · have hf : List.filter (fun s => ¬(s = [] ∨ s = gs ".")) (seg :: rest)
          = seg :: List.filter (fun s => ¬(s = [] ∨ s = gs ".")) rest := by
        rw [List.filter_cons, if_pos (by simpa using h1)]
      rw [hf]
      unfold cleanStack
      rw [if_neg h1, if_neg (h seg (List.mem_cons_self ..))]
      rw [ih (seg :: st) hrest]
      simp

theorem startsSlash_append (a b : GoStr) (ha : a ≠ []) :
    startsSlash (a ++ b) = startsSlash a := by
  cases a with
  | nil => cases ha rfl
  | cons x t => rfl

theorem goStrLe_total : ∀ a b : GoStr, goStrLe a b = true ∨ goStrLe b a = true := by
  intro a
  induction a with
  | nil => intro b; left; rfl
  | cons x xs ih =>
    intro b
    cases b with
    | nil => right; rfl
    | cons y ys =>
      unfold goStrLe
      by_cases h1 : x.toNat < y.toNat
      · left; rw [if_pos h1]
      · by_cases h2 : y.toNat < x.toNat
        · right; rw [if_pos h2]
        · rw [if_neg h1, if_neg h2, if_neg h2, if_neg h1]
          exact ih ys

theorem goStrLe_trans : ∀ a b c : GoStr, goStrLe a b = true →
    goStrLe b c = true → goStrLe a c = true := by
  intro a
  induction a with
  | nil => intro b c _ _; rfl
  | cons x xs ih =>
    intro b c hab hbc
    cases b with
    | nil => exact absurd hab (by simp [goStrLe])
    | cons y ys =>
      cases c with
      | nil => exact absurd hbc (by simp [goStrLe])
      | cons z zs =>
        unfold goStrLe at hab hbc ⊢
        by_cases hxy : x.toNat < y.toNat
        · by_cases hyz : y.toNat < z.toNat
          · rw [if_pos (by omega)]
          · by_cases hzy : z.toNat < y.toNat
            · rw [if_neg hyz, if_pos hzy] at hbc
              cases hbc
            · rw [if_pos (by omega)]
        · by_cases hyx : y.toNat < x.toNat
          · rw [if_neg hxy, if_pos hyx] at hab
            cases hab
          · rw [if_neg hxy, if_neg hyx] at hab
            by_cases hyz : y.toNat < z.toNat
            · rw [if_pos (by omega)]
            · by_cases hzy : z.toNat < y.toNat
              · rw [if_neg hyz, if_pos hzy] at hbc
                cases hbc
              · rw [if_neg hyz, if_neg hzy] at hbc
                rw [if_neg (by omega), if_neg (by omega)]
                exact ih ys zs hab hbc

theorem mem_replaceAllChar : ∀ (s : GoStr) (d : Char) (r : GoStr) (c : Char),
    c ∈ replaceAllChar s d r → (c ∈ s ∧ ¬(c = d)) ∨ c ∈ r := by
  intro s d r
  induction s with
  | nil => intro c hc; cases hc
  | cons x t ih =>
    intro c hc
    rw [replaceAllChar] at hc
    rcases List.mem_append.mp hc with hc | hc
    · by_cases hx : x = d
      · rw [if_pos hx] at hc
        exact Or.inr hc
      · rw [if_neg hx] at hc
        rcases List.mem_singleton.mp hc with rfl
        exact Or.inl ⟨List.mem_cons_self .., hx⟩
    · rcases ih c hc with ⟨h1, h2⟩ | h1
      · exact Or.inl ⟨List.mem_cons_of_mem _ h1, h2⟩
      · exact Or.inr h1

theorem trimSuffix_append_slash (p : GoStr) :
    trimSuffix (p ++ gs "/") (gs "/") = p := by
  unfold trimSuffix
  rw [if_pos (by rw [List.isSuffixOf_iff_suffix]; exact List.suffix_append _ _)]
  have hl : ((p ++ gs "/").length - (gs "/").length) = p.length := by simp
  rw [hl, List.take_left]

theorem trimSuffix_no_slash (p : GoStr) (h : (gs "/").isSuffixOf p = false) :
    trimSuffix p (gs "/") = p := by
  unfold trimSuffix
  rw [if_neg (by simp [h])]

theorem parseQueryPairs_nil : parseQueryPairs [] = [] := by
  rfl

theorem pairsSorted (pairs : List (GoStr × GoStr)) :
    List.Pairwise (fun p q => goStrLe p.1 q.1 = true)
      (pairs.mergeSort (fun p q => goStrLe p.1 q.1)) := by
  exact List.sorted_mergeSort
    (fun a b c hab hbc => goStrLe_trans a.1 b.1 c.1 hab hbc)
    (fun a b => by
      rcases goStrLe_total a.1 b.1 with h | h <;> simp [h])
    pairs

theorem mappedPath_root (sc h : GoStr) :
    mappedPath ⟨sc, h, gs "/", []⟩ = gs "/index.html" ∧
    mappedPath ⟨sc, h, [], []⟩ = gs "/index.html" := by
  constructor <;> rfl

theorem mappedPath_trailing (sc h p : GoStr) (h1 : p ≠ [])
    (h3 : (gs "/").isSuffixOf p = false) :
    mappedPath ⟨sc, h, p ++ gs "/", []⟩ = mappedPath ⟨sc, h, p, []⟩ := by
  have hne1 : ¬(p ++ gs "/" = []) := by
    intro hx
    simp at hx
    exact absurd hx.2 (by decide)
  have hne2 : ¬(p ++ gs "/" = gs "/") := by
    intro he
    apply h1
    have hl := congrArg List.length he
    simp at hl
    exact hl
  have hne3 : ¬(p = gs "/") := by
    intro he
    rw [he] at h3
    exact absurd h3 (by decide)
  unfold mappedPath
  dsimp only
  rw [if_neg (not_or.mpr ⟨hne1, hne2⟩), if_neg (not_or.mpr ⟨h1, hne3⟩),
    trimSuffix_append_slash, trimSuffix_no_slash p h3]

set_option maxHeartbeats 2000000 in
theorem mappedPath_query (u : URLModel)
    (hq : (parseQueryPairs u.rawQuery).length > 0) :
    ∃ S,
      (mappedPath u = trimSuffix (if u.path = [] ∨ u.path = gs "/" then
          gs "/index" else u.path) (gs "/") ++ gs "_q_" ++ S ∨
       mappedPath u = trimSuffix (if u.path = [] ∨ u.path = gs "/" then
          gs "/index" else u.path) (gs "/") ++ gs "_q_" ++ S ++ gs ".html") ∧
      S = replaceAllChar (replaceAllChar (replaceAllChar
          (encodeValues (parseQueryPairs u.rawQuery)) '&' (gs "_")) '='
          (gs "_")) '%' [] ∧
      (∀ c ∈ S, ¬(c = '&') ∧ ¬(c = '=') ∧ ¬(c = '%')) := by
  refine ⟨replaceAllChar (replaceAllChar (replaceAllChar
    (encodeValues (parseQueryPairs u.rawQuery)) '&' (gs "_")) '='
    (gs "_")) '%' [], ?_, rfl, ?_⟩
  · unfold mappedPath
    dsimp only
    rw [if_pos hq]
    split <;> split
    all_goals first | exact Or.inr rfl | exact Or.inl rfl
  · intro c hc
    rcases mem_replaceAllChar _ _ _ c hc with ⟨hc2, hp⟩ | hc2
    · rcases mem_replaceAllChar _ _ _ c hc2 with ⟨hc3, he⟩ | hc3
      · rcases mem_replaceAllChar _ _ _ c hc3 with ⟨_, ha⟩ | hc4
        · exact ⟨ha, he, hp⟩
        · rcases List.mem_singleton.mp hc4 with rfl
          exact ⟨by decide, by decide, by decide⟩
      · rcases List.mem_singleton.mp hc3 with rfl
        exact ⟨by decide, by decide, by decide⟩
    · cases hc2

set_option maxHeartbeats 1000000 in
theorem getFilePath_under (crawlDir : GoStr) (u : URLModel)
    (hd1 : crawlDir ≠ [])
    (hd2 : startsSlash crawlDir = false)
    (hd3 : ∀ s ∈ splitChar '/' crawlDir,
      ¬(s = [] ∨ s = gs ".") ∧ ¬(s = gs ".."))
    (hh1 : u.host ≠ [])
    (hh2 : u.host.all (fun c => ¬(c = '/')) = true)
    (hh3 : ¬(u.host = gs ".") ∧ ¬(u.host = gs ".."))
    (hm : ∀ s ∈ splitChar '/' (mappedPath u), ¬(s = gs ".."))
    (hmne : (splitChar '/' (mappedPath u)).filter
      (fun s => ¬(s = [] ∨ s = gs ".")) ≠ []) :
    getFilePath crawlDir u
      = crawlDir ++ gs "/" ++ u.host ++ gs "/" ++
        (gs "/").intercalate ((splitChar '/' (mappedPath u)).filter
          (fun s => ¬(s = [] ∨ s = gs "."))) ∧
    (crawlDir ++ gs "/" ++ u.host ++ gs "/").isPrefixOf
      (getFilePath crawlDir u) = true := by
  have hMne : mappedPath u ≠ [] := by
    intro he
    rw [he] at hmne
    exact hmne (by decide)
  have hparts : [crawlDir, u.host, mappedPath u].filter (fun x => x ≠ [])
      = [crawlDir, u.host, mappedPath u] := by
    simp [hd1, hh1, hMne]
  have h1 : getFilePath crawlDir u
      = cleanPath ((gs "/").intercalate [crawlDir, u.host, mappedPath u])
      := by
    unfold getFilePath joinPath3
    dsimp only
    rw [hparts, if_neg (by simp)]
  have hI : (gs "/").intercalate [crawlDir, u.host, mappedPath u]
      = crawlDir ++ '/' :: (u.host ++ '/' :: mappedPath u) := by
    rw [intercalate_cons_ne _ _ (by simp), intercalate_cons_ne _ _ (by simp),
      intercalate_single]
    simp only [List.append_assoc]
    rfl
  have hPne : crawlDir ++ '/' :: (u.host ++ '/' :: mappedPath u) ≠ [] := by
    simp
  have hroot : startsSlash (crawlDir ++ '/' :: (u.host ++ '/' ::
      mappedPath u)) = false := by
    rw [startsSlash_append _ _ hd1, hd2]
  have hsegs : splitChar '/' (crawlDir ++ '/' :: (u.host ++ '/' ::
      mappedPath u)) = splitChar '/' crawlDir ++ (splitChar '/' u.host ++
      splitChar '/' (mappedPath u)) := by
    rw [splitChar_append_slash, splitChar_append_slash]
  have hH : splitChar '/' u.host = [u.host] := splitChar_no_sep hh2
  have hnodot : ∀ s ∈ splitChar '/' crawlDir ++ (splitChar '/' u.host ++
      splitChar '/' (mappedPath u)), ¬(s = gs "..") := by
    intro s hs
    rcases List.mem_append.mp hs with hs | hs
    · exact (hd3 s hs).2
    · rcases List.mem_append.mp hs with hs | hs
      · rw [hH] at hs
        rcases List.mem_singleton.mp hs with rfl
        exact hh3.2
      · exact hm s hs
  have hfD : (splitChar '/' crawlDir).filter
      (fun s => ¬(s = [] ∨ s = gs ".")) = splitChar '/' crawlDir :=
    List.filter_eq_self.mpr (by intro a ha; simpa using (hd3 a ha).1)
  have hfH : ([u.host] : List GoStr).filter
      (fun s => ¬(s = [] ∨ s = gs ".")) = [u.host] := by
    simp [hh1, hh3.1]
  have hclean : cleanPath (crawlDir ++ '/' :: (u.host ++ '/' ::
      mappedPath u)) = crawlDir ++ gs "/" ++ u.host ++ gs "/" ++
      (gs "/").intercalate ((splitChar '/' (mappedPath u)).filter
        (fun s => ¬(s = [] ∨ s = gs "."))) := by
    unfold cleanPath
    rw [if_neg hPne]
    dsimp only
    rw [hroot, hsegs, cleanStack_no_dotdot false _ [] hnodot,
      List.reverse_nil, List.nil_append, List.filter_append,
      List.filter_append, hfD, hH, hfH]
    rw [if_neg (by simp)]
    rw [intercalate_append2 _ (splitChar_ne_nil _ _) _ (by simp),
      intercalate_splitChar, List.singleton_append,
      intercalate_cons_ne _ _ hmne]
    rw [if_neg (fun he => hd1
      (List.append_eq_nil.mp (List.append_eq_nil.mp he).1).1)]
    simp [List.append_assoc]
  constructor
  · rw [h1, hI, hclean]
  · rw [h1, hI, hclean, List.isPrefixOf_iff_prefix]
    refine ⟨(gs "/").intercalate ((splitChar '/' (mappedPath u)).filter
      (fun s => ¬(s = [] ∨ s = gs "."))), ?_⟩
    simp [List.append_assoc]

/-- C9: the persisted file path is a deterministic function of the URL's
host, path and query, with these clauses: for a crawl directory and URL
whose segments are free of dotdot (and whose host is a clean single
segment), the file lies under crawlDir/host/ -- the original unconditional
under-directory guarantee fails for URL paths with dotdot segments, which
filepath.Clean resolves upward and out of the crawl directory; an empty or
"/" path maps to /index (plus the .html extension); one trailing slash is
stripped; a present query is appended after a _q_ separator as the
key-sorted encoding with ampersand and equals replaced by underscores and
percent signs removed, none of which survive into the suffix; and the pair
list of the encoding is emitted in sorted key order. -/
theorem getFilePath_mapping :
    (∀ (crawlDir : GoStr) (u : URLModel), crawlDir ≠ [] →
      startsSlash crawlDir = false →
      (∀ s ∈ splitChar '/' crawlDir,
        ¬(s = [] ∨ s = gs ".") ∧ ¬(s = gs "..")) →
      u.host ≠ [] → u.host.all (fun c => ¬(c = '/')) = true →
      ¬(u.host = gs ".") ∧ ¬(u.host = gs "..") →
      (∀ s ∈ splitChar '/' (mappedPath u), ¬(s = gs "..")) →
      (splitChar '/' (mappedPath u)).filter
        (fun s => ¬(s = [] ∨ s = gs ".")) ≠ [] →
      getFilePath crawlDir u
        = crawlDir ++ gs "/" ++ u.host ++ gs "/" ++
          (gs "/").intercalate ((splitChar '/' (mappedPath u)).filter
            (fun s => ¬(s = [] ∨ s = gs "."))) ∧
      (crawlDir ++ gs "/" ++ u.host ++ gs "/").isPrefixOf
        (getFilePath crawlDir u) = true) ∧
    (∀ sc h : GoStr, mappedPath ⟨sc, h, gs "/", []⟩ = gs "/index.html" ∧
      mappedPath ⟨sc, h, [], []⟩ = gs "/index.html") ∧
    (∀ sc h p : GoStr, p ≠ [] → (gs "/").isSuffixOf p = false →
      mappedPath ⟨sc, h, p ++ gs "/", []⟩ = mappedPath ⟨sc, h, p, []⟩) ∧
    (∀ u : URLModel, (parseQueryPairs u.rawQuery).length > 0 →
      ∃ S,
        (mappedPath u = trimSuffix (if u.path = [] ∨ u.path = gs "/" then
            gs "/index" else u.path) (gs "/") ++ gs "_q_" ++ S ∨
         mappedPath u = trimSuffix (if u.path = [] ∨ u.path = gs "/" then
            gs "/index" else u.path) (gs "/") ++ gs "_q_" ++ S ++
            gs ".html") ∧
        S = replaceAllChar (replaceAllChar (replaceAllChar
            (encodeValues (parseQueryPairs u.rawQuery)) '&' (gs "_")) '='
            (gs "_")) '%' [] ∧
        (∀ c ∈ S, ¬(c = '&') ∧ ¬(c = '=') ∧ ¬(c = '%'))) ∧
    (∀ pairs : List (GoStr × GoStr),
      encodeValues pairs = (gs "&").intercalate
        ((pairs.mergeSort (fun p q => goStrLe p.1 q.1)).map
          (fun p => queryEscape p.1 ++ gs "=" ++ queryEscape p.2)) ∧
      List.Pairwise (fun p q => goStrLe p.1 q.1 = true)
        (pairs.mergeSort (fun p q => goStrLe p.1 q.1))) := by
  exact ⟨fun crawlDir u hd1 hd2 hd3 hh1 hh2 hh3 hm hmne =>
      getFilePath_under crawlDir u hd1 hd2 hd3 hh1 hh2 hh3 hm hmne,
    mappedPath_root, mappedPath_trailing, mappedPath_query,
    fun pairs => ⟨rfl, pairsSorted pairs⟩⟩

/-- C9 counterexample: a URL path with dotdot segments escapes the crawl
directory: the page at https://example.com/../../x persists at out/x.html,
not under out/crawl/example.com/, refuting the unconditional
under-directory claim. -/
theorem getFilePath_escape_counterexample :
    getFilePath (gs "out/crawl")
      ⟨gs "https", gs "example.com", gs "/../../x", []⟩ = gs "out/x.html" ∧
    (gs "out/crawl/example.com/").isPrefixOf
      (getFilePath (gs "out/crawl")
        ⟨gs "https", gs "example.com", gs "/../../x", []⟩) = false := by
  constructor <;> decide

/-- C9 witness: the under-directory clause at the concrete URL
https://example.com/a/b and crawl directory out/crawl, all hypotheses
checked by evaluation. -/
theorem getFilePath_mapping_witness :
    getFilePath (gs "out/crawl")
      ⟨gs "https", gs "example.com", gs "/a/b", []⟩
      = gs "out/crawl" ++ gs "/" ++ gs "example.com" ++ gs "/" ++
        (gs "/").intercalate ((splitChar '/'
          (mappedPath ⟨gs "https", gs "example.com", gs "/a/b", []⟩)).filter
          (fun s => ¬(s = [] ∨ s = gs "."))) := by
  exact (getFilePath_mapping.1 (gs "out/crawl")
    ⟨gs "https", gs "example.com", gs "/a/b", []⟩
    (by decide) (by decide) (by decide) (by decide) (by decide)
    (by decide) (by decide) (by decide)).1


end S2S
